import Mathlib

/-!
Verification of the publish pipeline of `src/main.ts` (an Obsidian plugin that
mirrors notes marked `publish: true` into a git-tracked directory and commits
the result).  Documents, assets and filesystem contents are embedded as lists
of characters / numbers; the asynchronous effects of the source (vault reads,
`fs.promises` writes, `git` invocations) are embedded as explicit state
passing over a small filesystem model, with an event trace recording every
write and git invocation.
-/

namespace GeneralPublish

/-- Opening delimiter of the frontmatter regex `^---\n` in `shouldPublishFile`
(src/main.ts line 168): the document must start with the line `---`. -/
def fmOpen : List Char := "---\n".data

/-- Closing delimiter pattern `\n---` of the frontmatter regex: a newline
followed by three hyphens (the hyphens need not form a whole line). -/
def fmClose : List Char := "\n---".data

/-- First accepted flag literal, `publish: true` (src/main.ts line 176). -/
def pubLit1 : List Char := "publish: true".data

/-- Second accepted flag literal, `publish:true` (src/main.ts line 177). -/
def pubLit2 : List Char := "publish:true".data

/-- Index of the first occurrence of `pat` as a prefix of a suffix of `s`,
embedding the leftmost-match search of the JavaScript regex engine. -/
def findSub (pat : List Char) : List Char → Option Nat
  | [] => if pat <+: ([] : List Char) then some 0 else none
  | c :: cs => if pat <+: (c :: cs) then some 0 else (findSub pat cs).map (· + 1)

/-- Substring test, embedding JavaScript `String.prototype.includes`. -/
def containsSub (pat s : List Char) : Bool := (findSub pat s).isSome

/-- The frontmatter body captured by matching the anchored lazy regex
with source text `^---\n([\s\S]*?)\n---` in `shouldPublishFile`
(src/main.ts line 168): the text between the leading `---` line and the first
following occurrence of a newline followed by three hyphens; `none` when the
regex does not match.  The lazy quantifier makes the body end at the first
occurrence of the closing pattern. -/
def extractFrontmatter (content : List Char) : Option (List Char) :=
  if fmOpen <+: content then
    match findSub fmClose (content.drop 4) with
    | some i => some ((content.drop 4).take i)
    | none => none
  else none

/-- Embedding of `shouldPublishFile` (src/main.ts lines 166-179): a document is
publishable when its frontmatter body (per the regex above) contains the
substring `publish: true` or `publish:true`.  Total, so never an error. -/
def shouldPublishFile (content : List Char) : Bool :=
  match extractFrontmatter content with
  | some fm => containsSub pubLit1 fm || containsSub pubLit2 fm
  | none => false

/-- Split a character list at every occurrence of a separator character. -/
def splitOnChar (sep : Char) : List Char → List (List Char)
  | [] => [[]]
  | c :: cs =>
    if c = sep then [] :: splitOnChar sep cs
    else
      match splitOnChar sep cs with
      | l :: ls => (c :: l) :: ls
      | [] => [[c]]

/-- The lines of a document, split at newline characters. -/
def splitLines (s : List Char) : List (List Char) := splitOnChar '\n' s

/-- A line consisting solely of three hyphens. -/
def dashLine : List Char := "---".data

/-- Publish-eligibility as claimed by the specification: the text begins with a
frontmatter block opened by a line consisting solely of three hyphens and
closed by another such line, and the block body (the lines strictly between
the opening line and the first closing line) contains `publish: true` or
`publish:true`.  This definition follows the specification text and is
compared against `shouldPublishFile`, which embeds the source. -/
def specEligible (content : List Char) : Bool :=
  match splitLines content with
  | [] => false
  | first :: rest =>
    first == dashLine &&
      match rest.findIdx? (fun l => l == dashLine) with
      | some j =>
        let body := List.intercalate ['\n'] (rest.take j)
        containsSub pubLit1 body || containsSub pubLit2 body
      | none => false

/-- Whether the text has a frontmatter block in the sense claimed by the
specification: a first line of exactly `---` and a later line of exactly
`---`. -/
def specHasBlock (content : List Char) : Bool :=
  match splitLines content with
  | [] => false
  | first :: rest => first == dashLine && rest.any (fun l => l == dashLine)

theorem findSub_some_found {pat s : List Char} {i : Nat}
    (h : findSub pat s = some i) : pat <+: s.drop i := by
  induction s generalizing i with
  | nil =>
    unfold findSub at h
    split at h
    · next hp => cases h; simpa using hp
    · cases h
  | cons c cs ih =>
    unfold findSub at h
    split at h
    · next hp => cases h; simpa using hp
    · next =>
      rcases Option.map_eq_some'.mp h with ⟨j, hj, rfl⟩
      simpa using ih hj

theorem findSub_some_min {pat s : List Char} {i : Nat}
    (h : findSub pat s = some i) {j : Nat} (hj : j < i) : ¬ pat <+: s.drop j := by
  induction s generalizing i j with
  | nil =>
    unfold findSub at h
    split at h
    · cases h; omega
    · cases h
  | cons c cs ih =>
    unfold findSub at h
    split at h
    · cases h; omega
    · next hp =>
      rcases Option.map_eq_some'.mp h with ⟨i', hi', rfl⟩
      cases j with
      | zero => simpa using hp
      | succ k =>
        have hk : k < i' := by omega
        simpa using ih hi' hk

theorem findSub_none {pat s : List Char}
    (h : findSub pat s = none) (j : Nat) : ¬ pat <+: s.drop j := by
  induction s generalizing j with
  | nil =>
    unfold findSub at h
    split at h
    · cases h
    · next hp => simpa using hp
  | cons c cs ih =>
    unfold findSub at h
    split at h
    · cases h
    · next hp =>
      cases j with
      | zero => simpa using hp
      | succ k =>
        have : findSub pat cs = none := by
          cases hcs : findSub pat cs with
          | none => rfl
          | some v => rw [hcs] at h; simp at h
        simpa using ih this k

theorem findSub_complete {pat s : List Char} {j : Nat}
    (h : pat <+: s.drop j) : ∃ i, findSub pat s = some i ∧ i ≤ j := by
  induction s generalizing j with
  | nil =>
    refine ⟨0, ?_, Nat.zero_le j⟩
    unfold findSub
    simp only [List.drop_nil] at h
    simp [h]
  | cons c cs ih =>
    by_cases hp : pat <+: (c :: cs)
    · exact ⟨0, by unfold findSub; simp [hp], Nat.zero_le j⟩
    · cases j with
      | zero => simp only [List.drop_zero] at h; exact absurd h hp
      | succ k =>
        simp only [List.drop_succ_cons] at h
        rcases ih h with ⟨i, hi, hik⟩
        exact ⟨i + 1, by unfold findSub; simp [hp, hi], by omega⟩

theorem containsSub_iff {pat s : List Char} : containsSub pat s = true ↔ pat <:+: s := by
  constructor
  · intro h
    rcases Option.isSome_iff_exists.mp h with ⟨i, hi⟩
    exact (findSub_some_found hi).isInfix.trans (List.drop_suffix i s).isInfix
  · rintro ⟨u, v, huv⟩
    have hd : s.drop u.length = pat ++ v := by
      rw [← huv, List.append_assoc, List.drop_left]
    have hpref : pat <+: s.drop u.length := ⟨v, hd.symm⟩
    rcases findSub_complete hpref with ⟨i, hi, _⟩
    exact Option.isSome_iff_exists.mpr ⟨i, hi⟩

theorem fmOpen_length : fmOpen.length = 4 := rfl

theorem fmClose_length : fmClose.length = 4 := rfl

theorem fmClose_ne_nil : fmClose ≠ [] := by decide

/-- Splitting the text after the opening delimiter at an index not past the
body: the dropped part starts with the remainder of the body. -/
theorem drop_body_split {body tail : List Char} {i : Nat} (h : i ≤ body.length) :
    (body ++ tail).drop i = body.drop i ++ tail := by
  rw [List.drop_append_eq_append_drop, show i - body.length = 0 by omega, List.drop_zero]

/-- When the opening delimiter matches and the closing pattern is found at
index `i`, the document splits as opening, the first `i` characters of the
remainder, the closing pattern, and a rest. -/
theorem split_of_findSub_some {c : List Char} {i : Nat}
    (hpre : fmOpen <+: c) (hfind : findSub fmClose (c.drop 4) = some i) :
    ∃ rest, c = fmOpen ++ (c.drop 4).take i ++ fmClose ++ rest := by
  obtain ⟨t, ht⟩ := hpre
  have hd : c.drop 4 = t := by rw [← ht]; exact List.drop_left' fmOpen_length
  obtain ⟨rest, hrest⟩ := findSub_some_found hfind
  refine ⟨rest, ?_⟩
  have hsplit : (c.drop 4).take i ++ (fmClose ++ rest) = c.drop 4 := by
    rw [hrest]; exact List.take_append_drop i (c.drop 4)
  rw [List.append_assoc, List.append_assoc, hsplit, hd]
  exact ht.symm

/-- When the body contains no occurrence of the closing pattern, the first
occurrence of the closing pattern in `body ++ fmClose ++ rest` is exactly at
the end of the body — the pattern cannot straddle the boundary because its
characters after the leading newline are hyphens while the character at the
boundary is the pattern's own newline. -/
theorem findSub_fmClose_split (body rest : List Char)
    (hninf : ¬ fmClose <:+: body) :
    findSub fmClose (body ++ (fmClose ++ rest)) = some body.length := by
  have hocc : fmClose <+: (body ++ (fmClose ++ rest)).drop body.length := by
    rw [List.drop_left' rfl]
    exact ⟨rest, rfl⟩
  rcases findSub_complete hocc with ⟨i, hfind, hile⟩
  have hieq : i = body.length := by
    by_contra hne
    have hlt : i < body.length := Nat.lt_of_le_of_ne hile hne
    have hpf : fmClose <+: (body ++ (fmClose ++ rest)).drop i := findSub_some_found hfind
    rw [drop_body_split (Nat.le_of_lt hlt)] at hpf
    by_cases hcase : i + 4 ≤ body.length
    · apply hninf
      have hzero : 4 - (body.drop i).length = 0 := by rw [List.length_drop]; omega
      have h4 : fmClose = (body.drop i).take 4 := by
        have heq := List.prefix_iff_eq_take.mp hpf
        rw [fmClose_length, List.take_append_eq_append_take, hzero] at heq
        simpa using heq
      have hpfb : fmClose <+: body.drop i := by
        rw [h4]; exact List.take_prefix 4 (body.drop i)
      exact hpfb.isInfix.trans (List.drop_suffix i body).isInfix
    · obtain ⟨w, hw⟩ := hpf
      obtain ⟨k, hkdef⟩ : ∃ k, (body.drop i).length = k := ⟨_, rfl⟩
      have hk1 : 1 ≤ k := by rw [← hkdef, List.length_drop]; omega
      have hk3 : k ≤ 3 := by rw [← hkdef, List.length_drop]; omega
      have hw2 : fmClose.take k ++ (fmClose.drop k ++ w) =
          body.drop i ++ (fmClose ++ rest) := by
        rw [← List.append_assoc, List.take_append_drop]
        exact hw
      have htl : (fmClose.take k).length = (body.drop i).length := by
        rw [hkdef, List.length_take, fmClose_length]; omega
      have heqk : fmClose.drop k ++ w = fmClose ++ rest := (List.append_inj hw2 htl).2
      interval_cases k
      · have hcontr : (some '-' : Option Char) = some '\n' := congrArg List.head? heqk
        simp at hcontr
      · have hcontr : (some '-' : Option Char) = some '\n' := congrArg List.head? heqk
        simp at hcontr
      · have hcontr : (some '-' : Option Char) = some '\n' := congrArg List.head? heqk
        simp at hcontr
  subst hieq
  exact hfind

/-- The frontmatter captured from a document split along the closing pattern
is exactly the body, provided the body contains no closing pattern. -/
theorem extractFrontmatter_split (body rest : List Char)
    (hninf : ¬ fmClose <:+: body) :
    extractFrontmatter (fmOpen ++ (body ++ (fmClose ++ rest))) = some body := by
  have hpre : fmOpen <+: fmOpen ++ (body ++ (fmClose ++ rest)) := List.prefix_append _ _
  have hd : (fmOpen ++ (body ++ (fmClose ++ rest))).drop 4 = body ++ (fmClose ++ rest) :=
    List.drop_left' fmOpen_length
  unfold extractFrontmatter
  rw [if_pos hpre, hd, findSub_fmClose_split body rest hninf]
  show some ((body ++ (fmClose ++ rest)).take body.length) = some body
  rw [List.take_left]

/-- Characterisation of `shouldPublishFile`: it returns `true` exactly when the
text decomposes as the opening line `---`, a body containing no occurrence of
a newline followed by three hyphens, the closing pattern (newline plus three
hyphens), and an arbitrary remainder, with the body containing one of the two
flag literals. -/
theorem shouldPublishFile_eq_true_iff (c : List Char) :
    shouldPublishFile c = true ↔
    ∃ body rest, c = fmOpen ++ body ++ fmClose ++ rest ∧
      ¬ fmClose <:+: body ∧ (pubLit1 <:+: body ∨ pubLit2 <:+: body) := by
  constructor
  · intro h
    by_cases hpre : fmOpen <+: c
    · cases hfind : findSub fmClose (c.drop 4) with
      | none =>
        unfold shouldPublishFile extractFrontmatter at h
        rw [if_pos hpre, hfind] at h
        simp at h
      | some i =>
        unfold shouldPublishFile extractFrontmatter at h
        rw [if_pos hpre, hfind] at h
        simp only [Bool.or_eq_true] at h
        have hprefi : fmClose <+: (c.drop 4).drop i := findSub_some_found hfind
        obtain ⟨rest, hrest⟩ := hprefi
        have hile : i ≤ (c.drop 4).length := by
          by_contra hgt
          push_neg at hgt
          have hnil : (c.drop 4).drop i = [] := List.drop_eq_nil_of_le (Nat.le_of_lt hgt)
          rw [hnil] at hrest
          exact fmClose_ne_nil (List.append_eq_nil.mp hrest).1
        obtain ⟨rest', hsplit'⟩ := split_of_findSub_some hpre hfind
        refine ⟨(c.drop 4).take i, rest', hsplit', ?_, ?_⟩
        · rintro ⟨u, v, huv⟩
          have hlenb : ((c.drop 4).take i).length = i := by
            rw [List.length_take]; omega
          have hulen : u.length < i := by
            have hlen := congrArg List.length huv
            rw [hlenb] at hlen
            simp only [List.length_append, fmClose_length] at hlen
            omega
          have hocc : fmClose <+: (c.drop 4).drop u.length := by
            have hsplit : c.drop 4 = u ++ (fmClose ++ (v ++ (c.drop 4).drop i)) := by
              conv_lhs => rw [← List.take_append_drop i (c.drop 4)]
              rw [← huv]
              simp [List.append_assoc]
            rw [hsplit, List.drop_left' rfl]
            exact ⟨v ++ (c.drop 4).drop i, rfl⟩
          exact findSub_some_min hfind hulen hocc
        · rcases h with h | h
          · exact Or.inl (containsSub_iff.mp h)
          · exact Or.inr (containsSub_iff.mp h)
    · unfold shouldPublishFile extractFrontmatter at h
      rw [if_neg hpre] at h
      simp at h
  · rintro ⟨body, rest, hc, hninf, hlit⟩
    rw [List.append_assoc, List.append_assoc] at hc
    subst hc
    unfold shouldPublishFile
    rw [extractFrontmatter_split body rest hninf]
    show (containsSub pubLit1 body || containsSub pubLit2 body) = true
    rcases hlit with h | h
    · simp [containsSub_iff.mpr h]
    · simp [containsSub_iff.mpr h]

/-- C1: counterexample to the claim as stated.  The document below matches the
source regex — whose closing delimiter is the substring consisting of a
newline and three hyphens, not a whole line — so `shouldPublishFile` answers
`true`, while no line after the opening consists solely of three hyphens, so
the claimed characterisation (`specEligible`, written from the claim text)
answers `false`. -/
theorem c1_counterexample :
    shouldPublishFile "---\npublish: true\n---x".data = true ∧
    specEligible "---\npublish: true\n---x".data = false :=
  ⟨by decide, by decide⟩

/-- C1 (amended): `shouldPublishFile` returns `true` exactly when the text
starts with the line `---` and contains a later occurrence of a newline
followed by three hyphens (the closing hyphens need not form a whole line);
the body is the text strictly between the opening line and the first such
occurrence, and eligibility is containment of `publish: true` or
`publish:true` in that body.  The function is total, so no input is an
error. -/
theorem c1_flag_detector (c : List Char) :
    shouldPublishFile c = true ↔
    ∃ body rest, c = fmOpen ++ body ++ fmClose ++ rest ∧
      ¬ fmClose <:+: body ∧ (pubLit1 <:+: body ∨ pubLit2 <:+: body) :=
  shouldPublishFile_eq_true_iff c

/-- C1 witness: the characterisation applied to a concrete publishable
document. -/
theorem c1_flag_detector_witness :
    shouldPublishFile "---\ntitle: a\npublish: true\n---\nrest".data = true :=
  (c1_flag_detector "---\ntitle: a\npublish: true\n---\nrest".data).mpr
    ⟨"title: a\npublish: true".data, "\nrest".data, by decide, by decide,
      Or.inl (by decide)⟩

/-- A file of the source corpus (a `TFile` of the Obsidian vault): its vault
path, its basename (`file.name`, the final path segment), its text content,
its binary content, and whether it is a markdown file (`getMarkdownFiles`
lists exactly the markdown files, `getFiles` lists all files). -/
structure SFile where
  path : List Char
  name : List Char
  content : List Char
  bytes : List Nat
  md : Bool
deriving DecidableEq

/-- Final path segment of a name, embedding `imageName.split("/").pop()`
(src/main.ts line 234). -/
def lastSegment (n : List Char) : List Char := (splitOnChar '/' n).getLastD []

/-- Exact-path lookup over the corpus, embedding the host API call
`this.app.vault.getAbstractFileByPath(imageName)` (src/main.ts line 224);
folders are not modelled, the vault list holds the corpus files. -/
def getAbstractFileByPath (vault : List SFile) (p : List Char) : Option SFile :=
  vault.find? (fun f => f.path == p)

/-- Resolution of one extracted asset name (src/main.ts lines 220-237): first
the direct path lookup; if that fails, a single search over all files whose
predicate accepts a basename match with the full name, a basename match with
the final path segment, or a full-path match, decided in vault enumeration
order. -/
def resolveAsset (vault : List SFile) (name : List Char) : Option SFile :=
  match getAbstractFileByPath vault name with
  | some f => some f
  | none =>
    vault.find? (fun f =>
      f.name == name || f.name == lastSegment name || f.path == name)

/-- Split a list at the first occurrence of a stop character: the characters
strictly before it and the characters strictly after it; `none` when the stop
character does not occur. -/
def splitAtChar (stop : Char) : List Char → Option (List Char × List Char)
  | [] => none
  | c :: cs =>
    if c = stop then some ([], cs)
    else
      match splitAtChar stop cs with
      | some (a, b) => some (c :: a, b)
      | none => none

/-- Body of a wiki embed after the opening `![[`, embedding the regex part
with source text `([^\]]+)]]`: one or more characters other than a closing
bracket, then two closing brackets; yields the captured name and the text
after the match. -/
def embedBody (t : List Char) : Option (List Char × List Char) :=
  match splitAtChar ']' t with
  | some (a, b) =>
    if a = [] then none
    else
      match b with
      | ']' :: b' => some (a, b')
      | _ => none
  | none => none

/-- Target of a markdown image after the bracket-parenthesis pair, embedding
the regex part with source text `([^)]+)`: one or more characters other than
a closing parenthesis, then the closing parenthesis. -/
def parenBody (t : List Char) : Option (List Char × List Char) :=
  match splitAtChar ')' t with
  | some (a, b) => if a = [] then none else some (a, b)
  | none => none

/-- Scan for the bracket-parenthesis pair closing the lazy alt text of a
markdown image.  The lazy dot of the regex excludes newlines, so the scan
aborts at a newline; when the target after a candidate pair fails to parse,
the regex engine backtracks to the next candidate pair, which the recursion
reproduces.  The fuel argument bounds the recursion by the text length. -/
def imageScan : Nat → List Char → Option (List Char × List Char)
  | 0, _ => none
  | _ + 1, [] => none
  | fuel + 1, ']' :: '(' :: r =>
    (match parenBody r with
     | some (target, rest) => some (target, rest)
     | none => imageScan fuel ('(' :: r))
  | _ + 1, '\n' :: _ => none
  | fuel + 1, _ :: r => imageScan fuel r

/-- Attempt to match the markdown-image alternative `![..](..)` at the
current position. -/
def tryImage (s : List Char) : Option (List Char × List Char) :=
  if ['!', '['] <+: s then imageScan s.length (s.drop 2) else none

/-- Attempt to match one asset reference at the current position, embedding
the alternation of the image regex (src/main.ts line 213): the wiki-embed
alternative is tried first, then the markdown-image alternative at the same
position. -/
def matchAt (s : List Char) : Option (List Char × List Char) :=
  if ['!', '[', '['] <+: s then
    match embedBody (s.drop 3) with
    | some (name, rest) => some (name, rest)
    | none => tryImage s
  else tryImage s

/-- Global scan collecting every asset reference in order of appearance,
embedding the `exec` loop over the image regex (src/main.ts lines 213-218);
after a match the scan resumes at the end of the match, otherwise it advances
one character.  The fuel argument bounds the recursion by the text length,
which strictly decreases at every step. -/
def extractAux : Nat → List Char → List (List Char)
  | 0, _ => []
  | _ + 1, [] => []
  | fuel + 1, c :: cs =>
    match matchAt (c :: cs) with
    | some (name, rest) => name :: extractAux fuel rest
    | none => extractAux fuel cs

/-- All asset reference names of a document, in order of appearance. -/
def extractAssetNames (content : List Char) : List (List Char) :=
  extractAux content.length content

/-- Plugin settings (the `GeneralPublishSettings` interface of src/main.ts);
the commit-message template plays no role in the verified claims and is
omitted. -/
structure Settings where
  gitRepoPath : List Char
  publishFolder : List Char
  assetsFolder : List Char
  autoCommit : Bool
deriving DecidableEq

/-- POSIX model of `path.isAbsolute`: the path starts with a slash. -/
def isAbsolute (p : List Char) : Bool :=
  match p with
  | c :: _ => c = '/'
  | [] => false

/-- Join of a directory and a relative component, modelling `path.resolve`
for the relative sub-paths the settings hold. -/
def joinPath (a b : List Char) : List Char := a ++ '/' :: b

/-- Target path of a mirrored document (src/main.ts lines 190-194): the
publish folder under the repository root, then the document's basename. -/
def docTarget (s : Settings) (name : List Char) : List Char :=
  joinPath (joinPath s.gitRepoPath s.publishFolder) name

/-- Target path of a mirrored asset (src/main.ts lines 255-259): the assets
folder under the repository root, then the asset's basename. -/
def assetTarget (s : Settings) (name : List Char) : List Char :=
  joinPath (joinPath s.gitRepoPath s.assetsFolder) name

/-- Value stored at a target path: document text written with utf8 encoding,
or raw asset bytes. -/
inductive FVal
  | text (t : List Char)
  | bin (b : List Nat)
deriving DecidableEq, Inhabited

/-- The target filesystem: an association list from paths to stored values,
with at most one entry per path (writes replace in place). -/
abbrev FS := List (List Char × FVal)

/-- Write to the filesystem: replace the value of an existing path in place,
or append a new entry. -/
def fsInsert (p : List Char) (v : FVal) : FS → FS
  | [] => [(p, v)]
  | (q, w) :: t => if p = q then (p, v) :: t else (q, w) :: fsInsert p v t

/-- Read back a path of the target filesystem. -/
def fsLookup (p : List Char) : FS → Option FVal
  | [] => none
  | (q, w) :: t => if p = q then some w else fsLookup p t

/-- The paths present in the target filesystem. -/
def fsKeys (st : FS) : List (List Char) := st.map Prod.fst

/-- Observable events of one pipeline run: a document write, an asset write,
a working-tree status query, and a stage-plus-commit invocation. -/
inductive Ev
  | wDoc (p : List Char) (t : List Char)
  | wAsset (p : List Char) (b : List Nat)
  | gitStatus
  | gitCommit
deriving DecidableEq

/-- Whether an event is a filesystem write. -/
def Ev.isWrite : Ev → Bool
  | .wDoc _ _ => true
  | .wAsset _ _ => true
  | _ => false

/-- Effect of one event on the target filesystem. -/
def evApply (st : FS) : Ev → FS
  | .wDoc p t => fsInsert p (.text t) st
  | .wAsset p b => fsInsert p (.bin b) st
  | .gitStatus => st
  | .gitCommit => st

/-- Effect of an event list on the target filesystem, first event first. -/
def applyEvs (evs : List Ev) (st : FS) : FS := evs.foldl evApply st

/-- Errors thrown inside the mirroring phase: the configuration guard of
`copyFileToRepo` (relative repository path), or a filesystem write failure at
a path. -/
inductive PubErr
  | configNotAbsolute
  | writeFail (p : List Char)
deriving DecidableEq

/-- One `fs.promises.writeFile` call: the environment parameter `fail` names
the paths whose write throws (permission, disk full); a failed write mutates
nothing. -/
def fsWrite (fail : List Char → Bool) (st : FS) (p : List Char) (v : FVal) :
    Except PubErr FS :=
  if fail p then .error (.writeFail p) else .ok (fsInsert p v st)

/-- Embedding of `copyAssetToRepo` (src/main.ts lines 251-266): read the
asset's bytes and write them verbatim to the assets folder under the asset's
basename; returns the new filesystem and the write event. -/
def copyAssetToRepo (s : Settings) (fail : List Char → Bool) (st : FS)
    (a : SFile) : Except PubErr (FS × List Ev) :=
  match fsWrite fail st (assetTarget s a.name) (.bin a.bytes) with
  | .ok st' => .ok (st', [.wAsset (assetTarget s a.name) a.bytes])
  | .error e => .error e

/-- The `while` loop of `copyReferencedAssets` (src/main.ts lines 216-248),
one iteration per extracted reference name: resolve the name against the
corpus and copy the resolved asset, catching and logging a copy error (the
try block of lines 240-244), and skipping unresolved names with a warning.
Never throws. -/
def copyAssetsLoop (s : Settings) (vault : List SFile)
    (fail : List Char → Bool) : List (List Char) → FS → FS × List Ev
  | [], st => (st, [])
  | name :: names, st =>
    match resolveAsset vault name with
    | some a =>
      match copyAssetToRepo s fail st a with
      | .ok (st1, evs) =>
        match copyAssetsLoop s vault fail names st1 with
        | (st2, evs2) => (st2, evs ++ evs2)
      | .error _ => copyAssetsLoop s vault fail names st
    | none => copyAssetsLoop s vault fail names st

/-- Embedding of `copyReferencedAssets` (src/main.ts lines 211-249): run the
copy loop over every reference extracted from the document text. -/
def copyReferencedAssets (s : Settings) (vault : List SFile)
    (fail : List Char → Bool) (content : List Char) (st : FS) : FS × List Ev :=
  copyAssetsLoop s vault fail (extractAssetNames content) st

/-- Embedding of `processContent` (src/main.ts lines 206-209): the content is
returned as-is, no link processing. -/
def processContent (content : List Char) (f : SFile) : List Char := content

/-- Embedding of `copyFileToRepo` (src/main.ts lines 181-204): validate that
the repository path is absolute (throwing before any write otherwise), write
the processed document text to the publish folder under the document's
basename, then copy the referenced assets. -/
def copyFileToRepo (s : Settings) (vault : List SFile)
    (fail : List Char → Bool) (st : FS) (f : SFile) :
    Except PubErr (FS × List Ev) :=
  if isAbsolute s.gitRepoPath then
    match fsWrite fail st (docTarget s f.name) (.text (processContent f.content f)) with
    | .ok st1 =>
      match copyReferencedAssets s vault fail f.content st1 with
      | (st2, evs) =>
        .ok (st2, .wDoc (docTarget s f.name) (processContent f.content f) :: evs)
    | .error e => .error e
  else .error .configNotAbsolute

/-- The publish loop of `publishAllNotes` (src/main.ts lines 91-93): mirror
each file in turn; the first exception aborts the loop (the surrounding try
block catches it), keeping the filesystem state and trace reached so far. -/
def publishLoop (s : Settings) (vault : List SFile) (fail : List Char → Bool) :
    List SFile → FS → Except PubErr Unit × FS × List Ev
  | [], st => (.ok (), st, [])
  | f :: fs, st =>
    match copyFileToRepo s vault fail st f with
    | .ok (st1, evs) =>
      match publishLoop s vault fail fs st1 with
      | (r, st2, evs2) => (r, st2, evs ++ evs2)
    | .error e => (.error e, st, [])

/-- Embedding of `getPublishableFiles` (src/main.ts lines 153-164): the
markdown files of the vault whose content passes `shouldPublishFile`, in
vault order. -/
def getPublishableFiles (vault : List SFile) : List SFile :=
  (vault.filter (fun f => f.md)).filter (fun f => shouldPublishFile f.content)

/-- State of the target git repository: the tree captured by the last commit
and the number of commits. -/
structure GitState where
  committed : FS
  commits : Nat
deriving DecidableEq

/-- Result of the commit step: the boolean returned by `commitChanges`
(a commit was created, or there was nothing to commit), or the rethrown
failure message. -/
inductive CommitRes
  | committed
  | noChanges
  | failed (msg : List Char)
deriving DecidableEq

/-- Substring the source looks for in a benign commit failure. -/
def nothingToCommitMsg : List Char := "nothing to commit".data

/-- Second substring the source looks for in a benign commit failure. -/
def workingTreeCleanMsg : List Char := "working tree clean".data

/-- Embedding of `commitChanges` (src/main.ts lines 268-304): query the
working-tree status (its porcelain output is empty exactly when the working
tree equals the committed tree) and return early with no further git
invocation when it is clean; otherwise stage and commit.  The environment
parameter `commitFailure` is the message of an `exec` failure of the
stage-plus-commit command, `none` when it succeeds; a failure message
containing `nothing to commit` or `working tree clean` is swallowed and
reported as no changes, any other failure is rethrown.  Returns the outcome,
the new git state, and the git events issued. -/
def commitChanges (st : FS) (git : GitState)
    (commitFailure : Option (List Char)) : CommitRes × GitState × List Ev :=
  if st = git.committed then (.noChanges, git, [.gitStatus])
  else
    match commitFailure with
    | none => (.committed, ⟨st, git.commits + 1⟩, [.gitStatus, .gitCommit])
    | some msg =>
      if containsSub nothingToCommitMsg msg || containsSub workingTreeCleanMsg msg then
        (.noChanges, git, [.gitStatus, .gitCommit])
      else (.failed msg, git, [.gitStatus, .gitCommit])

/-- User-visible outcome of one `publishAllNotes` run, one constructor per
exit path of src/main.ts lines 76-111. -/
inductive Outcome
  | noRepoPath
  | noFiles
  | noActive
  | cancelled
  | success (n : Nat)
  | copiedNoChanges (n : Nat)
  | errored (e : PubErr)
  | commitErrored (msg : List Char)
deriving DecidableEq

/-- Result of one pipeline run: outcome, final target filesystem, final git
state, and the full event trace. -/
structure RunResult where
  outcome : Outcome
  fs : FS
  git : GitState
  trace : List Ev
deriving DecidableEq

/-- Embedding of `publishAllNotes` (src/main.ts lines 76-111): guard on the
configured repository path, select the publishable files, mirror them in
order (the loop), then — only when auto-commit is on — invoke the commit step
once; an exception anywhere is caught by the surrounding try block and
reported as the run's error outcome. -/
def publishAllNotes (s : Settings) (vault : List SFile)
    (fail : List Char → Bool) (commitFailure : Option (List Char))
    (st : FS) (git : GitState) : RunResult :=
  if s.gitRepoPath = [] then ⟨.noRepoPath, st, git, []⟩
  else
    match getPublishableFiles vault with
    | [] => ⟨.noFiles, st, git, []⟩
    | pf :: pfs =>
      match publishLoop s vault fail (pf :: pfs) st with
      | (.error e, st', evs) => ⟨.errored e, st', git, evs⟩
      | (.ok _, st', evs) =>
        if s.autoCommit then
          match commitChanges st' git commitFailure with
          | (.committed, git', gevs) =>
            ⟨.success (pf :: pfs).length, st', git', evs ++ gevs⟩
          | (.noChanges, git', gevs) =>
            ⟨.copiedNoChanges (pf :: pfs).length, st', git', evs ++ gevs⟩
          | (.failed msg, git', gevs) =>
            ⟨.commitErrored msg, st', git', evs ++ gevs⟩
        else ⟨.success (pf :: pfs).length, st', git, evs⟩

/-- The line appended inside an existing frontmatter body by
`addPublishFlag` (src/main.ts line 323): a newline then `publish: true`. -/
def flagLine : List Char := "\npublish: true".data

/-- The minimal frontmatter block prepended by `addPublishFlag` when the
document has none (src/main.ts line 330): `---`, the flag line, `---`, and a
blank line. -/
def newBlockPrefix : List Char := "---\npublish: true\n---\n\n".data

/-- The backquote character, code point 96. -/
def backquoteChar : Char := Char.ofNat 96

/-- The apostrophe character, code point 39. -/
def apostropheChar : Char := Char.ofNat 39

/-- Expansion of a string replacement template, embedding the ECMAScript
GetSubstitution algorithm as `String.prototype.replace` applies it to the
replacement string of src/main.ts line 326, specialised to that call site:
the regex has exactly one capture group (`capture`), no named groups, and the
match is anchored at position 0 — so a dollar-backquote pattern (the portion
of the subject before the match) expands to nothing, a dollar-apostrophe
pattern expands to the portion after the match (`after`), a dollar-ampersand
pattern to the whole `matched` region, a doubled dollar to one dollar, and a
dollar followed by digits to the capture when the digit sequence names group
one (two digits are read first; a two-digit index above the group count
falls back to one digit; index zero or above the group count passes through
literally).  Substituted text is not rescanned.  The fuel argument bounds the
recursion; every step consumes at least one template character, so the
template's length is sufficient fuel for the exact expansion. -/
def expandRepl (matched capture after : List Char) :
    Nat → List Char → List Char
  | _, [] => []
  | 0, l => l
  | fuel + 1, c :: rest =>
    if c = '$' then
      match rest with
      | [] => ['$']
      | c2 :: t =>
        if c2 = '$' then '$' :: expandRepl matched capture after fuel t
        else if c2 = '&' then matched ++ expandRepl matched capture after fuel t
        else if c2 = backquoteChar then expandRepl matched capture after fuel t
        else if c2 = apostropheChar then
          after ++ expandRepl matched capture after fuel t
        else if c2.isDigit then
          match t with
          | [] => if c2 = '1' then capture else ['$', c2]
          | d2 :: t2 =>
            if d2.isDigit then
              if c2 = '0' ∧ d2 = '1' then
                capture ++ expandRepl matched capture after fuel t2
              else if c2 = '0' ∧ d2 = '0' then
                '$' :: '0' :: '0' :: expandRepl matched capture after fuel t2
              else if c2 = '1' then
                capture ++ expandRepl matched capture after fuel t
              else '$' :: c2 :: expandRepl matched capture after fuel t
            else if c2 = '1' then
              capture ++ expandRepl matched capture after fuel t
            else '$' :: c2 :: expandRepl matched capture after fuel t
        else '$' :: c2 :: expandRepl matched capture after fuel t
    else c :: expandRepl matched capture after fuel rest

/-- Embedding of `addPublishFlag` (src/main.ts lines 313-334): when the
frontmatter regex matches, `content.replace` substitutes for the matched
region (opening line, body, closing pattern) the replacement string built
from the captured body and the flag line, with the dollar patterns of the
replacement string expanded per `expandRepl` — the capture is the body, the
match is anchored at the start, and the text after the match is the
remainder of the document; otherwise the minimal block is prepended to the
original content. -/
def addPublishFlag (content : List Char) : List Char :=
  if fmOpen <+: content then
    match findSub fmClose (content.drop 4) with
    | some i =>
      expandRepl (fmOpen ++ (content.drop 4).take i ++ fmClose)
        ((content.drop 4).take i)
        ((content.drop 4).drop (i + 4))
        (fmOpen ++ (content.drop 4).take i ++ flagLine ++ fmClose).length
        (fmOpen ++ (content.drop 4).take i ++ flagLine ++ fmClose) ++
        (content.drop 4).drop (i + 4)
    | none => newBlockPrefix ++ content
  else newBlockPrefix ++ content

/-- Overwrite one document's text in the vault, embedding
`this.app.vault.modify(file, newContent)` (src/main.ts line 333). -/
def vaultModify (vault : List SFile) (p : List Char) (newContent : List Char) :
    List SFile :=
  vault.map (fun f => if f.path = p then { f with content := newContent } else f)

/-- Tail of `publishCurrentNote` (src/main.ts lines 137-150): mirror the
active document, then — only when auto-commit is on — invoke the commit step
once. -/
def runCurrent (s : Settings) (vault : List SFile) (fail : List Char → Bool)
    (commitFailure : Option (List Char)) (f : SFile) (st : FS)
    (git : GitState) : List SFile × RunResult :=
  match copyFileToRepo s vault fail st f with
  | .error e => (vault, ⟨.errored e, st, git, []⟩)
  | .ok (st', evs) =>
    if s.autoCommit then
      match commitChanges st' git commitFailure with
      | (.committed, git', gevs) => (vault, ⟨.success 1, st', git', evs ++ gevs⟩)
      | (.noChanges, git', gevs) => (vault, ⟨.copiedNoChanges 1, st', git', evs ++ gevs⟩)
      | (.failed msg, git', gevs) => (vault, ⟨.commitErrored msg, st', git', evs ++ gevs⟩)
    else (vault, ⟨.success 1, st', git, evs⟩)

/-- Embedding of `publishCurrentNote` (src/main.ts lines 113-151): guard on
the active file and the configured repository path; when the active document
is not yet publishable ask for confirmation, either mutating it through
`addPublishFlag` or — on a negative answer — returning with no mutation and
no mirroring; then mirror and commit.  The parameter `activePath` is the path
of the active file (none when there is none), `confirmed` the answer the
confirmation modal would deliver. -/
def publishCurrentNote (s : Settings) (vault : List SFile)
    (fail : List Char → Bool) (commitFailure : Option (List Char))
    (activePath : Option (List Char)) (confirmed : Bool)
    (st : FS) (git : GitState) : List SFile × RunResult :=
  match activePath with
  | none => (vault, ⟨.noActive, st, git, []⟩)
  | some p =>
    if s.gitRepoPath = [] then (vault, ⟨.noRepoPath, st, git, []⟩)
    else
      match vault.find? (fun f => f.path == p) with
      | none => (vault, ⟨.noActive, st, git, []⟩)
      | some f0 =>
        if shouldPublishFile f0.content then
          runCurrent s vault fail commitFailure f0 st git
        else if confirmed then
          runCurrent s (vaultModify vault p (addPublishFlag f0.content)) fail
            commitFailure { f0 with content := addPublishFlag f0.content } st git
        else (vault, ⟨.cancelled, st, git, []⟩)

/-- The events the asset-copy loop issues, as a function of the reference
names alone; the loop's control flow never depends on the filesystem state. -/
def assetsTrace (s : Settings) (vault : List SFile) (fail : List Char → Bool) :
    List (List Char) → List Ev
  | [] => []
  | name :: names =>
    match resolveAsset vault name with
    | some a =>
      if fail (assetTarget s a.name) then assetsTrace s vault fail names
      else .wAsset (assetTarget s a.name) a.bytes :: assetsTrace s vault fail names
    | none => assetsTrace s vault fail names

/-- Appending event lists composes their filesystem effect. -/
theorem applyEvs_append (a b : List Ev) (st : FS) :
    applyEvs (a ++ b) st = applyEvs b (applyEvs a st) :=
  List.foldl_append evApply st a b

/-- The asset-copy loop writes exactly its trace, applied to the incoming
filesystem state. -/
theorem copyAssetsLoop_eq (s : Settings) (vault : List SFile)
    (fail : List Char → Bool) :
    ∀ (names : List (List Char)) (st : FS),
      copyAssetsLoop s vault fail names st =
        (applyEvs (assetsTrace s vault fail names) st,
          assetsTrace s vault fail names) := by
  intro names
  induction names with
  | nil => intro st; rfl
  | cons name names ih =>
    intro st
    cases hres : resolveAsset vault name with
    | none => simp [copyAssetsLoop, assetsTrace, hres, ih]
    | some a =>
      cases hfail : fail (assetTarget s a.name) with
      | true =>
        simp [copyAssetsLoop, assetsTrace, copyAssetToRepo, fsWrite, hres, hfail, ih]
      | false =>
        simp [copyAssetsLoop, assetsTrace, copyAssetToRepo, fsWrite, hres, hfail, ih,
          applyEvs, evApply]

/-- The events `fileTrace` predicts `copyFileToRepo` to issue for one
document, or the error it predicts it to throw: the configuration guard, the
document write, then the asset-copy loop. -/
def fileTrace (s : Settings) (vault : List SFile) (fail : List Char → Bool)
    (f : SFile) : Except PubErr (List Ev) :=
  if isAbsolute s.gitRepoPath then
    if fail (docTarget s f.name) then .error (.writeFail (docTarget s f.name))
    else
      .ok (.wDoc (docTarget s f.name) f.content ::
        assetsTrace s vault fail (extractAssetNames f.content))
  else .error .configNotAbsolute

/-- `copyFileToRepo` writes exactly the trace `fileTrace` predicts, applied
to the incoming filesystem state, and fails exactly when `fileTrace`
predicts an error; in particular its behaviour does not depend on the
incoming state. -/
theorem copyFileToRepo_eq (s : Settings) (vault : List SFile)
    (fail : List Char → Bool) (st : FS) (f : SFile) :
    copyFileToRepo s vault fail st f =
      match fileTrace s vault fail f with
      | .ok evs => .ok (applyEvs evs st, evs)
      | .error e => .error e := by
  cases habs : isAbsolute s.gitRepoPath with
  | false => simp [copyFileToRepo, fileTrace, habs]
  | true =>
    cases hfail : fail (docTarget s f.name) with
    | true => simp [copyFileToRepo, fileTrace, fsWrite, habs, hfail]
    | false =>
      simp [copyFileToRepo, fileTrace, fsWrite, copyReferencedAssets, processContent,
        habs, hfail, copyAssetsLoop_eq, applyEvs, evApply]

/-- The result flag and events `loopTrace` predicts for the publish loop:
per-document traces concatenated up to the first failing document. -/
def loopTrace (s : Settings) (vault : List SFile) (fail : List Char → Bool) :
    List SFile → Except PubErr Unit × List Ev
  | [] => (.ok (), [])
  | f :: fs =>
    match fileTrace s vault fail f with
    | .ok evs =>
      match loopTrace s vault fail fs with
      | (r, evs2) => (r, evs ++ evs2)
    | .error e => (.error e, [])

/-- The publish loop writes exactly the trace `loopTrace` predicts, applied
to the incoming filesystem state, and its result flag is the one `loopTrace`
predicts; its behaviour does not depend on the incoming state. -/
theorem publishLoop_eq (s : Settings) (vault : List SFile)
    (fail : List Char → Bool) :
    ∀ (pubs : List SFile) (st : FS),
      publishLoop s vault fail pubs st =
        ((loopTrace s vault fail pubs).1,
          applyEvs (loopTrace s vault fail pubs).2 st,
          (loopTrace s vault fail pubs).2) := by
  intro pubs
  induction pubs with
  | nil => intro st; rfl
  | cons f fs ih =>
    intro st
    cases hft : fileTrace s vault fail f with
    | error e => simp [publishLoop, loopTrace, copyFileToRepo_eq, hft, applyEvs]
    | ok evs =>
      simp [publishLoop, loopTrace, copyFileToRepo_eq, hft, ih, applyEvs_append]

/-- Resolution order as the specification claims it, written from the claim
text for comparison with `resolveAsset`: (1) exact match of a known corpus
path equal to the literal name, then (2) any corpus file whose path equals
the name, then (3) any corpus file whose filename equals the full name or the
name's final path segment, first candidate in corpus enumeration order. -/
def specResolve (vault : List SFile) (name : List Char) : Option SFile :=
  match vault.find? (fun f => f.path == name) with
  | some f => some f
  | none =>
    match vault.find? (fun f => f.path == name) with
    | some f => some f
    | none =>
      vault.find? (fun f => f.name == name || f.name == lastSegment name)

/-- When no corpus file's path equals the name, the disjunctive search of the
source collapses to the basename search. -/
theorem find?_or_path_eq (name : List Char) :
    ∀ vault : List SFile,
      (∀ f ∈ vault, (f.path == name) = false) →
      vault.find?
        (fun f => f.name == name || f.name == lastSegment name || f.path == name) =
      vault.find? (fun f => f.name == name || f.name == lastSegment name) := by
  intro vault
  induction vault with
  | nil => intro _; rfl
  | cons f fs ih =>
    intro hall
    have hpf : (f.path == name) = false := hall f (List.mem_cons_self f fs)
    have htail : ∀ g ∈ fs, (g.path == name) = false := fun g hg =>
      hall g (List.mem_cons_of_mem f hg)
    cases hhead : (f.name == name || f.name == lastSegment name) with
    | true =>
      rw [List.find?_cons_of_pos, List.find?_cons_of_pos]
      · exact hhead
      · rw [hpf, hhead]; rfl
    | false =>
      rw [List.find?_cons_of_neg, List.find?_cons_of_neg]
      · exact ih htail
      · simp [hhead]
      · simp [hpf, hhead]

/-- C3: the resolution implemented by the source equals the claimed strict
priority order — path matches first (steps 1 and 2 coincide: both are
equality of a corpus path with the literal name), then basename matches with
the full name or its final segment, ties broken by corpus enumeration order;
being a pure function of the corpus and the name, repeated runs on an
unchanged corpus resolve an ambiguous reference identically. -/
theorem c3_resolution_order (vault : List SFile) (name : List Char) :
    resolveAsset vault name = specResolve vault name := by
  unfold resolveAsset specResolve getAbstractFileByPath
  cases hfind : vault.find? (fun f => f.path == name) with
  | some f => rfl
  | none =>
    have hall : ∀ f ∈ vault, (f.path == name) = false := by
      intro f hf
      have := List.find?_eq_none.mp hfind f hf
      simpa using this
    simpa using find?_or_path_eq name vault hall

/-- A file found by the resolver belongs to the corpus. -/
theorem resolveAsset_mem {vault : List SFile} {name : List Char} {a : SFile}
    (h : resolveAsset vault name = some a) : a ∈ vault := by
  unfold resolveAsset getAbstractFileByPath at h
  cases hfind : vault.find? (fun f => f.path == name) with
  | some f =>
    rw [hfind] at h
    cases h
    exact List.mem_of_find?_eq_some hfind
  | none =>
    rw [hfind] at h
    exact List.mem_of_find?_eq_some h

/-- Every event of the asset-copy trace is the write of some corpus file's
bytes at that file's asset target. -/
theorem assetsTrace_events (s : Settings) (vault : List SFile)
    (fail : List Char → Bool) :
    ∀ names, ∀ e ∈ assetsTrace s vault fail names,
      ∃ a ∈ vault, e = .wAsset (assetTarget s a.name) a.bytes := by
  intro names
  induction names with
  | nil => intro e he; simp [assetsTrace] at he
  | cons name names ih =>
    intro e he
    unfold assetsTrace at he
    cases hres : resolveAsset vault name with
    | none => simp only [hres] at he; exact ih e he
    | some a =>
      simp only [hres] at he
      by_cases hfail : fail (assetTarget s a.name) = true
      · rw [if_pos hfail] at he; exact ih e he
      · rw [if_neg hfail] at he
        rcases List.mem_cons.mp he with rfl | hm
        · exact ⟨a, resolveAsset_mem hres, rfl⟩
        · exact ih e hm

/-- Reading back the path just written yields the value written. -/
theorem fsLookup_fsInsert_self (p : List Char) (v : FVal) :
    ∀ st : FS, fsLookup p (fsInsert p v st) = some v := by
  intro st
  induction st with
  | nil => simp [fsInsert, fsLookup]
  | cons kv t ih =>
    obtain ⟨q, w⟩ := kv
    by_cases hpq : p = q
    · simp [fsInsert, fsLookup, hpq]
    · simp [fsInsert, fsLookup, hpq, ih]

/-- Writing one path leaves every other path unchanged. -/
theorem fsLookup_fsInsert_ne {p q : List Char} (h : q ≠ p) (v : FVal) :
    ∀ st : FS, fsLookup q (fsInsert p v st) = fsLookup q st := by
  intro st
  induction st with
  | nil => simp [fsInsert, fsLookup, h]
  | cons kv t ih =>
    obtain ⟨r, w⟩ := kv
    by_cases hpr : p = r
    · subst hpr
      simp [fsInsert, fsLookup, h]
    · by_cases hqr : q = r
      · simp [fsInsert, fsLookup, hpr, hqr]
      · simp [fsInsert, fsLookup, hpr, hqr, ih]

/-- Whether one trace event is a verbatim copy from the source corpus while
mirroring document `f`: a document write carries exactly `f`'s text at `f`'s
document target, an asset write carries exactly some corpus file's bytes at
that file's asset target; git events carry no content. -/
def verbatimEv (s : Settings) (vault : List SFile) (f : SFile) : Ev → Prop
  | .wDoc p t => p = docTarget s f.name ∧ t = f.content
  | .wAsset p b => ∃ a ∈ vault, p = assetTarget s a.name ∧ b = a.bytes
  | .gitStatus => True
  | .gitCommit => True

/-- C6: no content transformation of any kind.  `processContent` is the
identity on content; a successful asset copy stores exactly the source
asset's bytes at the asset target; and every write a successful document
mirror issues is verbatim — the document write carries exactly the source
text at the document target, and each asset write carries exactly some corpus
file's bytes at that file's asset target. -/
theorem c6_verbatim_mirroring :
    (∀ (content : List Char) (f : SFile), processContent content f = content) ∧
    (∀ (s : Settings) (fail : List Char → Bool) (st : FS) (a : SFile)
        (st' : FS) (evs : List Ev),
      copyAssetToRepo s fail st a = .ok (st', evs) →
        fsLookup (assetTarget s a.name) st' = some (.bin a.bytes)) ∧
    (∀ (s : Settings) (vault : List SFile) (fail : List Char → Bool) (st : FS)
        (f : SFile) (st' : FS) (evs : List Ev),
      copyFileToRepo s vault fail st f = .ok (st', evs) →
        evs.head? = some (.wDoc (docTarget s f.name) f.content) ∧
        ∀ e ∈ evs, verbatimEv s vault f e) := by
  refine ⟨fun _ _ => rfl, ?_, ?_⟩
  · intro s fail st a st' evs h
    unfold copyAssetToRepo fsWrite at h
    by_cases hfail : fail (assetTarget s a.name) = true
    · rw [if_pos hfail] at h; cases h
    · rw [if_neg hfail] at h
      cases h
      exact fsLookup_fsInsert_self _ _ _
  · intro s vault fail st f st' evs h
    rw [copyFileToRepo_eq] at h
    cases hft : fileTrace s vault fail f with
    | error e => rw [hft] at h; cases h
    | ok evs0 =>
      rw [hft] at h
      cases h
      unfold fileTrace at hft
      by_cases habs : isAbsolute s.gitRepoPath = true
      · rw [if_pos habs] at hft
        by_cases hfail : fail (docTarget s f.name) = true
        · rw [if_pos hfail] at hft; cases hft
        · rw [if_neg hfail] at hft
          cases hft
          constructor
          · rfl
          · intro e he
            rcases List.mem_cons.mp he with rfl | hm
            · exact ⟨rfl, rfl⟩
            · rcases assetsTrace_events s vault fail _ e hm with ⟨a, ha, rfl⟩
              exact ⟨a, ha, rfl, rfl⟩
      · rw [if_neg habs] at hft; cases hft

/-- Concrete settings for witnesses: an absolute repository path and the
default folders. -/
def wSettings : Settings := ⟨"/repo".data, "content".data, "assets".data, true⟩

/-- Write-failure environment in which every write succeeds. -/
def noFail : List Char → Bool := fun _ => false

/-- A publishable markdown document for witnesses. -/
def wNoteA : SFile :=
  ⟨"a.md".data, "a.md".data, "---\npublish: true\n---\nA".data, [], true⟩

/-- A second publishable markdown document for witnesses. -/
def wNoteB : SFile :=
  ⟨"sub/b.md".data, "b.md".data, "---\npublish:true\n---\nB".data, [], true⟩

/-- A binary asset for witnesses. -/
def wPic : SFile := ⟨"pic.png".data, "pic.png".data, [], [7, 8, 9], false⟩

/-- An empty git state for witnesses. -/
def git0 : GitState := ⟨[], 0⟩

/-- C6 witness: the asset-copy branch applied to a concrete asset whose write
succeeds, read back from the resulting filesystem. -/
theorem c6_verbatim_mirroring_witness :
    fsLookup (assetTarget wSettings wPic.name)
      [(assetTarget wSettings wPic.name, FVal.bin [7, 8, 9])] =
      some (.bin [7, 8, 9]) :=
  c6_verbatim_mirroring.2.1 wSettings noFail [] wPic
    [(assetTarget wSettings wPic.name, FVal.bin [7, 8, 9])]
    [.wAsset (assetTarget wSettings wPic.name) [7, 8, 9]] rfl

/-- C10: the target path of a mirrored document or asset is determined solely
by the file's basename, not its corpus path.  First conjunct: two documents
with equal basename and equal content are mirrored identically, whatever
their corpus paths.  Second conjunct: mirroring a second document with the
same basename (and no asset references of its own) after a first one
overwrites the first — the target path holds the second document's text.
Third conjunct: the same overwrite for assets with equal basenames. -/
theorem c10_basename_collision :
    (∀ (s : Settings) (vault : List SFile) (fail : List Char → Bool) (st : FS)
        (f g : SFile), f.name = g.name → f.content = g.content →
      copyFileToRepo s vault fail st f = copyFileToRepo s vault fail st g) ∧
    (∀ (s : Settings) (vault : List SFile) (fail : List Char → Bool) (st : FS)
        (f1 f2 : SFile) (st1 : FS) (evs1 : List Ev),
      f1.name = f2.name →
      copyFileToRepo s vault fail st f1 = .ok (st1, evs1) →
      isAbsolute s.gitRepoPath = true →
      fail (docTarget s f2.name) = false →
      extractAssetNames f2.content = [] →
      ∃ st2 evs2, copyFileToRepo s vault fail st1 f2 = .ok (st2, evs2) ∧
        fsLookup (docTarget s f1.name) st2 = some (.text f2.content)) ∧
    (∀ (s : Settings) (fail : List Char → Bool) (st : FS) (a1 a2 : SFile)
        (st1 : FS) (evs1 : List Ev),
      a1.name = a2.name →
      copyAssetToRepo s fail st a1 = .ok (st1, evs1) →
      fail (assetTarget s a2.name) = false →
      ∃ st2 evs2, copyAssetToRepo s fail st1 a2 = .ok (st2, evs2) ∧
        fsLookup (assetTarget s a1.name) st2 = some (.bin a2.bytes)) := by
  refine ⟨?_, ?_, ?_⟩
  · intro s vault fail st f g hname hcontent
    unfold copyFileToRepo copyReferencedAssets processContent
    rw [hname, hcontent]
  · intro s vault fail st f1 f2 st1 evs1 hname h1 habs hfail hrefs
    rw [copyFileToRepo_eq]
    unfold fileTrace
    rw [if_pos habs, if_neg (by simp [hfail]), hrefs]
    refine ⟨_, _, rfl, ?_⟩
    show fsLookup (docTarget s f1.name)
        (applyEvs [.wDoc (docTarget s f2.name) f2.content] st1) = some (.text f2.content)
    show fsLookup (docTarget s f1.name)
        (fsInsert (docTarget s f2.name) (.text f2.content) st1) = some (.text f2.content)
    rw [hname]
    exact fsLookup_fsInsert_self _ _ _
  · intro s fail st a1 a2 st1 evs1 hname h1 hfail
    unfold copyAssetToRepo fsWrite
    rw [if_neg (by simp [hfail])]
    refine ⟨_, _, rfl, ?_⟩
    rw [hname]
    exact fsLookup_fsInsert_self _ _ _

/-- A second publishable document with the same basename as `wNoteA` but a
different corpus path and different content. -/
def wNoteA2 : SFile :=
  ⟨"other/a.md".data, "a.md".data, "---\npublish: true\n---\nsecond".data, [], true⟩

/-- C10 witness: mirroring `wNoteA` then `wNoteA2` (same basename `a.md`,
different corpus paths) leaves the second document's text at the shared
target path. -/
theorem c10_basename_collision_witness :
    ∃ st2 evs2,
      copyFileToRepo wSettings [] noFail
        [(docTarget wSettings wNoteA.name, FVal.text wNoteA.content)] wNoteA2 =
        .ok (st2, evs2) ∧
      fsLookup (docTarget wSettings wNoteA.name) st2 =
        some (.text wNoteA2.content) :=
  c10_basename_collision.2.1 wSettings [] noFail [] wNoteA wNoteA2
    [(docTarget wSettings wNoteA.name, FVal.text wNoteA.content)]
    [.wDoc (docTarget wSettings wNoteA.name) wNoteA.content]
    rfl rfl rfl rfl (by decide)

/-- Write-failure environment failing exactly the document target of
`wNoteA`. -/
def failDocA : List Char → Bool := fun p => p == docTarget wSettings wNoteA.name

/-- C2: counterexample to the claim as stated.  With two publishable
documents and a write failure on the first document's target, the batch run
aborts: its outcome is the write error and the second document — although
publishable — is never mirrored, contradicting the claim that a document
write failure leaves the remaining documents mirrored. -/
theorem c2_counterexample :
    shouldPublishFile wNoteB.content = true ∧
    (publishAllNotes wSettings [wNoteA, wNoteB] failDocA none [] git0).outcome =
      .errored (.writeFail (docTarget wSettings wNoteA.name)) ∧
    fsLookup (docTarget wSettings wNoteB.name)
      (publishAllNotes wSettings [wNoteA, wNoteB] failDocA none [] git0).fs = none :=
  ⟨by decide, by decide, by decide⟩

/-- A failed document mirror aborts the publish loop immediately: nothing
further is written and the error is returned with the incoming state. -/
theorem publishLoop_cons_error {s : Settings} {vault : List SFile}
    {fail : List Char → Bool} {f : SFile} {fs : List SFile} {st : FS}
    {e : PubErr} (h : copyFileToRepo s vault fail st f = .error e) :
    publishLoop s vault fail (f :: fs) st = (.error e, st, []) := by
  unfold publishLoop
  rw [h]

/-- A run whose publish loop throws reports the error as its outcome and
keeps the filesystem state the loop reached. -/
theorem publishAllNotes_loop_error {s : Settings} {vault : List SFile}
    {fail : List Char → Bool} {cf : Option (List Char)} {st : FS}
    {git : GitState} {pf : SFile} {pfs : List SFile} {e : PubErr} {st' : FS}
    {evs : List Ev}
    (hne : s.gitRepoPath ≠ [])
    (hpubs : getPublishableFiles vault = pf :: pfs)
    (hloop : publishLoop s vault fail (pf :: pfs) st = (.error e, st', evs)) :
    publishAllNotes s vault fail cf st git = ⟨.errored e, st', git, evs⟩ := by
  unfold publishAllNotes
  rw [if_neg hne]
  simp only [hpubs, hloop]

/-- C2 (amended): an asset write failure is non-fatal — a document whose own
write succeeds is always mirrored successfully, whatever asset writes fail
(first conjunct) — but a document write failure aborts the batch: the loop
stops with nothing further written (second conjunct) and the error becomes
the run's outcome while the documents already mirrored stay in place (third
conjunct). -/
theorem c2_failure_containment :
    (∀ (s : Settings) (vault : List SFile) (fail : List Char → Bool) (st : FS)
        (f : SFile),
      isAbsolute s.gitRepoPath = true →
      fail (docTarget s f.name) = false →
      ∃ r, copyFileToRepo s vault fail st f = .ok r) ∧
    (∀ (s : Settings) (vault : List SFile) (fail : List Char → Bool)
        (f : SFile) (fs : List SFile) (st : FS) (e : PubErr),
      copyFileToRepo s vault fail st f = .error e →
      publishLoop s vault fail (f :: fs) st = (.error e, st, [])) ∧
    (∀ (s : Settings) (vault : List SFile) (fail : List Char → Bool)
        (cf : Option (List Char)) (st : FS) (git : GitState) (pf : SFile)
        (pfs : List SFile) (e : PubErr) (st' : FS) (evs : List Ev),
      s.gitRepoPath ≠ [] →
      getPublishableFiles vault = pf :: pfs →
      publishLoop s vault fail (pf :: pfs) st = (.error e, st', evs) →
      publishAllNotes s vault fail cf st git = ⟨.errored e, st', git, evs⟩) := by
  refine ⟨?_, ?_, ?_⟩
  · intro s vault fail st f habs hfail
    rw [copyFileToRepo_eq]
    unfold fileTrace
    rw [if_pos habs, if_neg (by simp [hfail])]
    exact ⟨_, rfl⟩
  · intro s vault fail f fs st e h
    exact publishLoop_cons_error h
  · intro s vault fail cf st git pf pfs e st' evs hne hpubs hloop
    exact publishAllNotes_loop_error hne hpubs hloop

/-- C2 witness: the concrete aborted batch of the counterexample, derived by
applying the amended theorem — the loop error surfaces as the run outcome
with the filesystem unchanged. -/
theorem c2_failure_containment_witness :
    publishAllNotes wSettings [wNoteA, wNoteB] failDocA none [] git0 =
      ⟨.errored (.writeFail (docTarget wSettings wNoteA.name)), [], git0, []⟩ :=
  c2_failure_containment.2.2 wSettings [wNoteA, wNoteB] failDocA none [] git0
    wNoteA [wNoteB] (.writeFail (docTarget wSettings wNoteA.name)) [] []
    (by decide) (by decide) rfl

/-- Settings with a non-empty relative repository path. -/
def relSettings : Settings := ⟨"repo".data, "content".data, "assets".data, true⟩

/-- With a relative repository path every document mirror throws the
configuration error before writing anything. -/
theorem copyFileToRepo_config_error {s : Settings} {vault : List SFile}
    {fail : List Char → Bool} {st : FS} {f : SFile}
    (h : isAbsolute s.gitRepoPath = false) :
    copyFileToRepo s vault fail st f = .error .configNotAbsolute := by
  rw [copyFileToRepo_eq]
  unfold fileTrace
  rw [if_neg (by simp [h])]

/-- C4: counterexample to the claim as stated.  With a relative repository
path but no publishable file, the run exits reporting that no files were
found — it does not fail with a configuration error, because the source
validates the path inside the per-file copy, which never runs. -/
theorem c4_counterexample :
    isAbsolute relSettings.gitRepoPath = false ∧
    (publishAllNotes relSettings [] noFail none [] git0).outcome = .noFiles ∧
    Outcome.noFiles ≠ .errored .configNotAbsolute :=
  ⟨by decide, by decide, by decide⟩

/-- C4 (amended): a relative repository path never lets a run mutate the
target — the filesystem, the git state and the event trace come back
untouched whatever the corpus (first conjunct) — and as soon as at least one
publishable file is selected, the run fails with the configuration error
(second conjunct); with no publishable file the run exits early reporting no
files instead. -/
theorem c4_relative_root_guard :
    (∀ (s : Settings) (vault : List SFile) (fail : List Char → Bool)
        (cf : Option (List Char)) (st : FS) (git : GitState),
      isAbsolute s.gitRepoPath = false →
      (publishAllNotes s vault fail cf st git).fs = st ∧
      (publishAllNotes s vault fail cf st git).git = git ∧
      (publishAllNotes s vault fail cf st git).trace = []) ∧
    (∀ (s : Settings) (vault : List SFile) (fail : List Char → Bool)
        (cf : Option (List Char)) (st : FS) (git : GitState),
      isAbsolute s.gitRepoPath = false →
      s.gitRepoPath ≠ [] →
      getPublishableFiles vault ≠ [] →
      (publishAllNotes s vault fail cf st git).outcome =
        .errored .configNotAbsolute) := by
  constructor
  · intro s vault fail cf st git habs
    by_cases hne : s.gitRepoPath = []
    · unfold publishAllNotes
      rw [if_pos hne]
      refine ⟨?_, ?_, ?_⟩ <;> trivial
    · cases hpubs : getPublishableFiles vault with
      | nil =>
        unfold publishAllNotes
        rw [if_neg hne]
        simp only [hpubs]
        refine ⟨?_, ?_, ?_⟩ <;> trivial
      | cons pf pfs =>
        rw [publishAllNotes_loop_error hne hpubs
          (publishLoop_cons_error (copyFileToRepo_config_error habs))]
        refine ⟨?_, ?_, ?_⟩ <;> trivial
  · intro s vault fail cf st git habs hne hpubs
    cases hp : getPublishableFiles vault with
    | nil => exact absurd hp hpubs
    | cons pf pfs =>
      rw [publishAllNotes_loop_error hne hp
        (publishLoop_cons_error (copyFileToRepo_config_error habs))]

/-- C4 witness: a concrete run with a relative root and one publishable file
fails with the configuration error and leaves the target untouched. -/
theorem c4_relative_root_guard_witness :
    (publishAllNotes relSettings [wNoteA] noFail none [] git0).fs = [] ∧
    (publishAllNotes relSettings [wNoteA] noFail none [] git0).outcome =
      .errored .configNotAbsolute :=
  ⟨(c4_relative_root_guard.1 relSettings [wNoteA] noFail none [] git0
      (by decide)).1,
    c4_relative_root_guard.2 relSettings [wNoteA] noFail none [] git0
      (by decide) (by decide) (by decide)⟩

/-- Whether a commit failure message is one the source swallows. -/
def benignMsg (msg : List Char) : Bool :=
  containsSub nothingToCommitMsg msg || containsSub workingTreeCleanMsg msg

/-- Equation for the commit step under a failing stage-plus-commit command. -/
theorem commitChanges_some (st : FS) (git : GitState) (msg : List Char) :
    commitChanges st git (some msg) =
      if st = git.committed then (.noChanges, git, [.gitStatus])
      else if benignMsg msg = true then (.noChanges, git, [.gitStatus, .gitCommit])
      else (.failed msg, git, [.gitStatus, .gitCommit]) := by
  unfold commitChanges benignMsg
  by_cases h : st = git.committed
  · rw [if_pos h]
  · rw [if_neg h]

/-- C5: the commit step's contract.  First conjunct: a clean status returns
NoChanges with only the status query issued — no stage or commit invocation.
Second conjunct: a commit failure whose message indicates nothing to commit
or a clean working tree is reported as NoChanges.  Third conjunct: any other
commit failure is reported as Failed with the message, the git state
untouched.  Fourth conjunct: at the pipeline level such a failure surfaces as
the run's outcome while the mirrored filesystem state is kept — not rolled
back. -/
theorem c5_commit_step_contract :
    (∀ (st : FS) (git : GitState) (cf : Option (List Char)),
      st = git.committed →
      commitChanges st git cf = (.noChanges, git, [.gitStatus])) ∧
    (∀ (st : FS) (git : GitState) (msg : List Char),
      benignMsg msg = true →
      (commitChanges st git (some msg)).1 = .noChanges) ∧
    (∀ (st : FS) (git : GitState) (msg : List Char),
      st ≠ git.committed →
      benignMsg msg = false →
      commitChanges st git (some msg) =
        (.failed msg, git, [.gitStatus, .gitCommit])) ∧
    (∀ (s : Settings) (vault : List SFile) (fail : List Char → Bool)
        (st : FS) (git : GitState) (msg : List Char) (pf : SFile)
        (pfs : List SFile) (st' : FS) (evs : List Ev),
      s.gitRepoPath ≠ [] →
      getPublishableFiles vault = pf :: pfs →
      s.autoCommit = true →
      publishLoop s vault fail (pf :: pfs) st = (.ok (), st', evs) →
      st' ≠ git.committed →
      benignMsg msg = false →
      publishAllNotes s vault fail (some msg) st git =
        ⟨.commitErrored msg, st', git, evs ++ [.gitStatus, .gitCommit]⟩) := by
  refine ⟨?_, ?_, ?_, ?_⟩
  · intro st git cf h
    unfold commitChanges
    rw [if_pos h]
  · intro st git msg hb
    rw [commitChanges_some]
    by_cases h : st = git.committed
    · rw [if_pos h]
    · rw [if_neg h, if_pos hb]
  · intro st git msg hne hb
    rw [commitChanges_some, if_neg hne, if_neg (by simp [hb])]
  · intro s vault fail st git msg pf pfs st' evs hne hpubs hauto hloop hdirty hb
    unfold publishAllNotes
    rw [if_neg hne]
    simp only [hpubs, hloop]
    rw [if_pos hauto]
    rw [commitChanges_some, if_neg hdirty, if_neg (by simp [hb])]

/-- C5 witness: the three commit-step conjuncts at concrete inputs — a clean
tree yields NoChanges with only a status query; a benign race message yields
NoChanges; an unrelated failure message yields Failed. -/
theorem c5_commit_step_contract_witness :
    commitChanges [] git0 none = (.noChanges, git0, [.gitStatus]) ∧
    (commitChanges [(['a'], FVal.bin [1])] git0
      (some "nothing to commit, working tree clean".data)).1 = .noChanges ∧
    commitChanges [(['a'], FVal.bin [1])] git0 (some "fatal: not a git repository".data) =
      (.failed "fatal: not a git repository".data, git0,
        [.gitStatus, .gitCommit]) :=
  ⟨c5_commit_step_contract.1 [] git0 none (by decide),
    c5_commit_step_contract.2.1 [(['a'], FVal.bin [1])] git0
      "nothing to commit, working tree clean".data (by decide),
    c5_commit_step_contract.2.2.1 [(['a'], FVal.bin [1])] git0
      "fatal: not a git repository".data (by decide) (by decide)⟩

/-- Every event a successful document mirror issues is a filesystem write. -/
theorem fileTrace_writes {s : Settings} {vault : List SFile}
    {fail : List Char → Bool} {f : SFile} {evs : List Ev}
    (h : fileTrace s vault fail f = .ok evs) : ∀ e ∈ evs, e.isWrite = true := by
  unfold fileTrace at h
  by_cases habs : isAbsolute s.gitRepoPath = true
  · rw [if_pos habs] at h
    by_cases hfail : fail (docTarget s f.name) = true
    · rw [if_pos hfail] at h; cases h
    · rw [if_neg hfail] at h
      cases h
      intro e he
      rcases List.mem_cons.mp he with rfl | hm
      · rfl
      · rcases assetsTrace_events s vault fail _ e hm with ⟨a, _, rfl⟩
        rfl
  · rw [if_neg habs] at h; cases h

/-- Every event the publish loop issues is a filesystem write. -/
theorem loopTrace_writes (s : Settings) (vault : List SFile)
    (fail : List Char → Bool) :
    ∀ pubs, ∀ e ∈ (loopTrace s vault fail pubs).2, e.isWrite = true := by
  intro pubs
  induction pubs with
  | nil => intro e he; simp [loopTrace] at he
  | cons f fs ih =>
    intro e he
    unfold loopTrace at he
    cases hft : fileTrace s vault fail f with
    | error e' => simp only [hft] at he; simp at he
    | ok evs =>
      rcases hlt : loopTrace s vault fail fs with ⟨r, evs2⟩
      rw [hlt] at ih
      simp only [hft, hlt] at he
      rcases List.mem_append.mp he with hm | hm
      · exact fileTrace_writes hft e hm
      · exact ih e hm

/-- The git events of one commit step: a status query alone, or a status
query followed by the stage-plus-commit invocation. -/
theorem commitChanges_trace (st : FS) (git : GitState)
    (cf : Option (List Char)) :
    (commitChanges st git cf).2.2 = [.gitStatus] ∨
    (commitChanges st git cf).2.2 = [.gitStatus, .gitCommit] := by
  cases cf with
  | none =>
    unfold commitChanges
    by_cases h : st = git.committed
    · rw [if_pos h]; exact Or.inl rfl
    · rw [if_neg h]; exact Or.inr rfl
  | some msg =>
    rw [commitChanges_some]
    by_cases h : st = git.committed
    · rw [if_pos h]; exact Or.inl rfl
    · rw [if_neg h]
      by_cases hb : benignMsg msg = true
      · rw [if_pos hb]; exact Or.inr rfl
      · rw [if_neg hb]; exact Or.inr rfl

/-- Equation for a run with a configured repository path and a non-empty
selection of publishable files. -/
theorem publishAllNotes_cons (s : Settings) (vault : List SFile)
    (fail : List Char → Bool) (cf : Option (List Char)) (st : FS)
    (git : GitState) (pf : SFile) (pfs : List SFile)
    (hne : ¬ s.gitRepoPath = [])
    (hpubs : getPublishableFiles vault = pf :: pfs) :
    publishAllNotes s vault fail cf st git =
      match publishLoop s vault fail (pf :: pfs) st with
      | (.error e, st', evs) => ⟨.errored e, st', git, evs⟩
      | (.ok _, st', evs) =>
        if s.autoCommit = true then
          match commitChanges st' git cf with
          | (.committed, git', gevs) =>
            ⟨.success (pf :: pfs).length, st', git', evs ++ gevs⟩
          | (.noChanges, git', gevs) =>
            ⟨.copiedNoChanges (pf :: pfs).length, st', git', evs ++ gevs⟩
          | (.failed msg, git', gevs) =>
            ⟨.commitErrored msg, st', git', evs ++ gevs⟩
        else ⟨.success (pf :: pfs).length, st', git, evs⟩ := by
  unfold publishAllNotes
  rw [if_neg hne]
  simp only [hpubs]

/-- Shape of the trace of any run: filesystem writes first, then the git
phase, which is empty, a lone status query, or a status query followed by
the single commit invocation; the git phase is empty when auto-commit is
off. -/
theorem run_trace_shape (s : Settings) (vault : List SFile)
    (fail : List Char → Bool) (cf : Option (List Char)) (st : FS)
    (git : GitState) :
    ∃ wevs gevs,
      (publishAllNotes s vault fail cf st git).trace = wevs ++ gevs ∧
      (∀ e ∈ wevs, e.isWrite = true) ∧
      (gevs = [] ∨ gevs = [.gitStatus] ∨ gevs = [.gitStatus, .gitCommit]) ∧
      (s.autoCommit = false → gevs = []) := by
  by_cases hne : s.gitRepoPath = []
  · unfold publishAllNotes
    rw [if_pos hne]
    exact ⟨[], [], rfl, by simp, Or.inl rfl, fun _ => rfl⟩
  · cases hpubs : getPublishableFiles vault with
    | nil =>
      unfold publishAllNotes
      rw [if_neg hne]
      simp only [hpubs]
      exact ⟨[], [], rfl, by simp, Or.inl rfl, fun _ => rfl⟩
    | cons pf pfs =>
      rw [publishAllNotes_cons s vault fail cf st git pf pfs hne hpubs,
        publishLoop_eq]
      cases hok : (loopTrace s vault fail (pf :: pfs)).1 with
      | error e =>
        simp only [hok]
        exact ⟨(loopTrace s vault fail (pf :: pfs)).2, [], by simp,
          loopTrace_writes s vault fail _, Or.inl rfl, fun _ => rfl⟩
      | ok u =>
        simp only [hok]
        by_cases hauto : s.autoCommit = true
        · rw [if_pos hauto]
          rcases hc : commitChanges (applyEvs (loopTrace s vault fail (pf :: pfs)).2 st)
              git cf with ⟨cr, git', gevs⟩
          have hg : gevs = [.gitStatus] ∨ gevs = [.gitStatus, .gitCommit] := by
            have := commitChanges_trace
              (applyEvs (loopTrace s vault fail (pf :: pfs)).2 st) git cf
            rw [hc] at this
            exact this
          cases cr with
          | committed =>
            exact ⟨(loopTrace s vault fail (pf :: pfs)).2, gevs, rfl,
              loopTrace_writes s vault fail _, Or.inr hg,
              fun hfalse => by rw [hfalse] at hauto; cases hauto⟩
          | noChanges =>
            exact ⟨(loopTrace s vault fail (pf :: pfs)).2, gevs, rfl,
              loopTrace_writes s vault fail _, Or.inr hg,
              fun hfalse => by rw [hfalse] at hauto; cases hauto⟩
          | failed msg =>
            exact ⟨(loopTrace s vault fail (pf :: pfs)).2, gevs, rfl,
              loopTrace_writes s vault fail _, Or.inr hg,
              fun hfalse => by rw [hfalse] at hauto; cases hauto⟩
        · rw [if_neg hauto]
          exact ⟨(loopTrace s vault fail (pf :: pfs)).2, [], by simp,
            loopTrace_writes s vault fail _, Or.inl rfl, fun _ => rfl⟩

/-- C8: in every run the stage-plus-commit invocation occurs at most once;
the trace splits into a prefix of filesystem writes followed by a git phase
containing no write — so the single possible commit observes the filesystem
only after every mirror write of the batch has completed (never per
document); and when auto-commit is off the commit invocation never occurs. -/
theorem c8_commit_barrier (s : Settings) (vault : List SFile)
    (fail : List Char → Bool) (cf : Option (List Char)) (st : FS)
    (git : GitState) :
    (publishAllNotes s vault fail cf st git).trace.count .gitCommit ≤ 1 ∧
    (∃ wevs gevs,
      (publishAllNotes s vault fail cf st git).trace = wevs ++ gevs ∧
      (∀ e ∈ wevs, e.isWrite = true) ∧
      (∀ e ∈ gevs, e.isWrite = false) ∧
      Ev.gitCommit ∉ wevs) ∧
    (s.autoCommit = false →
      Ev.gitCommit ∉ (publishAllNotes s vault fail cf st git).trace) := by
  obtain ⟨wevs, gevs, htr, hw, hshape, hoff⟩ := run_trace_shape s vault fail cf st git
  have hnc : Ev.gitCommit ∉ wevs := by
    intro hmem
    have := hw _ hmem
    simp [Ev.isWrite] at this
  refine ⟨?_, ⟨wevs, gevs, htr, hw, ?_, hnc⟩, ?_⟩
  · rw [htr, List.count_append]
    have h0 : wevs.count Ev.gitCommit = 0 := List.count_eq_zero.mpr hnc
    have h1 : gevs.count Ev.gitCommit ≤ 1 := by
      rcases hshape with rfl | rfl | rfl <;> decide
    omega
  · rcases hshape with rfl | rfl | rfl
    · simp
    · intro e he
      rcases List.mem_singleton.mp he with rfl
      rfl
    · intro e he
      rcases List.mem_cons.mp he with rfl | he2
      · rfl
      · rcases List.mem_singleton.mp he2 with rfl
        rfl
  · intro hfalse
    rw [htr, hoff hfalse, List.append_nil]
    exact hnc

/-- C8 witness: a concrete run with auto-commit on issues at most one commit
invocation. -/
theorem c8_commit_barrier_witness :
    (publishAllNotes wSettings [wNoteA] noFail none [] git0).trace.count
      .gitCommit ≤ 1 :=
  (c8_commit_barrier wSettings [wNoteA] noFail none [] git0).1

theorem fsKeys_cons (p : List Char) (v : FVal) (st : FS) :
    fsKeys ((p, v) :: st) = p :: fsKeys st := rfl

/-- An in-place write to a present path keeps the key list unchanged. -/
theorem fsKeys_fsInsert_of_mem {p : List Char} (v : FVal) :
    ∀ st : FS, p ∈ fsKeys st → fsKeys (fsInsert p v st) = fsKeys st := by
  intro st
  induction st with
  | nil => intro h; exact absurd h (by simp [fsKeys])
  | cons kv t ih =>
    obtain ⟨q, w⟩ := kv
    intro h
    by_cases hpq : p = q
    · subst hpq
      simp [fsInsert, fsKeys]
    · have hmem : p ∈ fsKeys t := by
        rw [fsKeys_cons] at h
        rcases List.mem_cons.mp h with h1 | h1
        · exact absurd h1 hpq
        · exact h1
      simp [fsInsert, fsKeys, hpq]
      simpa [fsKeys] using ih hmem

/-- A write to an absent path appends the new key. -/
theorem fsKeys_fsInsert_of_not_mem {p : List Char} (v : FVal) :
    ∀ st : FS, p ∉ fsKeys st → fsKeys (fsInsert p v st) = fsKeys st ++ [p] := by
  intro st
  induction st with
  | nil => intro _; simp [fsInsert, fsKeys]
  | cons kv t ih =>
    obtain ⟨q, w⟩ := kv
    intro h
    have hpq : p ≠ q := by
      intro hc
      exact h (by rw [fsKeys_cons, hc]; exact List.mem_cons_self _ _)
    have ht : p ∉ fsKeys t := fun hc =>
      h (by rw [fsKeys_cons]; exact List.mem_cons_of_mem _ hc)
    simp [fsInsert, fsKeys, hpq]
    simpa [fsKeys] using ih ht

/-- The written path is a key of the result. -/
theorem mem_fsKeys_fsInsert (p : List Char) (v : FVal) :
    ∀ st : FS, p ∈ fsKeys (fsInsert p v st) := by
  intro st
  by_cases hm : p ∈ fsKeys st
  · rw [fsKeys_fsInsert_of_mem v st hm]; exact hm
  · rw [fsKeys_fsInsert_of_not_mem v st hm]; simp

/-- Keys survive any write. -/
theorem mem_fsKeys_fsInsert_of_mem {q : List Char} (p : List Char) (v : FVal) :
    ∀ st : FS, q ∈ fsKeys st → q ∈ fsKeys (fsInsert p v st) := by
  intro st hq
  by_cases hm : p ∈ fsKeys st
  · rw [fsKeys_fsInsert_of_mem v st hm]; exact hq
  · rw [fsKeys_fsInsert_of_not_mem v st hm]; exact List.mem_append_left _ hq

/-- Writes preserve distinctness of keys. -/
theorem nodup_fsKeys_fsInsert {p : List Char} (v : FVal) :
    ∀ st : FS, (fsKeys st).Nodup → (fsKeys (fsInsert p v st)).Nodup := by
  intro st h
  by_cases hm : p ∈ fsKeys st
  · rw [fsKeys_fsInsert_of_mem v st hm]; exact h
  · rw [fsKeys_fsInsert_of_not_mem v st hm]
    rw [List.nodup_append]
    refine ⟨h, List.nodup_singleton p, ?_⟩
    intro a ha hb
    rw [List.mem_singleton] at hb
    subst hb
    exact hm ha

/-- A path that is not a key reads back as absent. -/
theorem fsLookup_eq_none_of_not_mem {p : List Char} :
    ∀ st : FS, p ∉ fsKeys st → fsLookup p st = none := by
  intro st
  induction st with
  | nil => intro _; rfl
  | cons kv t ih =>
    obtain ⟨q, w⟩ := kv
    intro h
    have hpq : p ≠ q := fun hc =>
      h (by rw [fsKeys_cons, hc]; exact List.mem_cons_self _ _)
    have ht : p ∉ fsKeys t := fun hc =>
      h (by rw [fsKeys_cons]; exact List.mem_cons_of_mem _ hc)
    simp [fsLookup, hpq]
    exact ih ht

/-- Extensionality: two stores with the same key list in the same order,
distinct keys, and the same reads are equal. -/
theorem fs_ext : ∀ st st' : FS, fsKeys st = fsKeys st' →
    (fsKeys st).Nodup → (∀ q, fsLookup q st = fsLookup q st') → st = st' := by
  intro st
  induction st with
  | nil =>
    intro st' hk _ _
    cases st' with
    | nil => rfl
    | cons kv t => simp [fsKeys] at hk
  | cons kv t ih =>
    intro st' hk hnd hlook
    obtain ⟨p, v⟩ := kv
    cases st' with
    | nil => simp [fsKeys] at hk
    | cons kv' t' =>
      obtain ⟨p', v'⟩ := kv'
      simp only [fsKeys, List.map_cons] at hk
      rw [List.cons.injEq] at hk
      obtain ⟨hpp, hkt⟩ := hk
      subst hpp
      have hv : v = v' := by
        have := hlook p
        simpa [fsLookup] using this
      subst hv
      have hndt : (fsKeys t).Nodup := by
        simp only [fsKeys, List.map_cons, List.nodup_cons] at hnd
        exact hnd.2
      have hpt : p ∉ fsKeys t := by
        simp only [fsKeys, List.map_cons, List.nodup_cons] at hnd
        exact hnd.1
      have hpt' : p ∉ fsKeys t' := by
        simp only [fsKeys] at hpt ⊢
        rw [← hkt]
        exact hpt
      have htl : ∀ q, fsLookup q t = fsLookup q t' := by
        intro q
        by_cases hqp : q = p
        · subst hqp
          rw [fsLookup_eq_none_of_not_mem t hpt, fsLookup_eq_none_of_not_mem t' hpt']
        · have := hlook q
          simpa [fsLookup, hqp] using this
      rw [ih t' (by simpa [fsKeys] using hkt) hndt htl]

/-- The target path of one event, when it is a write. -/
def evKey : Ev → Option (List Char)
  | .wDoc p _ => some p
  | .wAsset p _ => some p
  | .gitStatus => none
  | .gitCommit => none

/-- The paths a trace writes. -/
def evKeys (evs : List Ev) : List (List Char) := evs.filterMap evKey

theorem evKeys_nil : evKeys [] = [] := rfl

theorem evKeys_cons_wDoc (p t : List Char) (evs : List Ev) :
    evKeys (Ev.wDoc p t :: evs) = p :: evKeys evs := rfl

theorem evKeys_cons_wAsset (p : List Char) (b : List Nat) (evs : List Ev) :
    evKeys (Ev.wAsset p b :: evs) = p :: evKeys evs := rfl

theorem evKeys_cons_gitStatus (evs : List Ev) :
    evKeys (Ev.gitStatus :: evs) = evKeys evs := rfl

theorem evKeys_cons_gitCommit (evs : List Ev) :
    evKeys (Ev.gitCommit :: evs) = evKeys evs := rfl

/-- Replaying a trace leaves paths it does not write unchanged. -/
theorem applyEvs_lookup_of_not_mem :
    ∀ (evs : List Ev) (st : FS) (q : List Char), q ∉ evKeys evs →
      fsLookup q (applyEvs evs st) = fsLookup q st := by
  intro evs
  induction evs with
  | nil => intro st q _; rfl
  | cons e evs ih =>
    intro st q hq
    show fsLookup q (applyEvs evs (evApply st e)) = fsLookup q st
    cases e with
    | wDoc p t =>
      rw [evKeys_cons_wDoc] at hq
      have hqp : q ≠ p := fun h => hq (by rw [h]; exact List.mem_cons_self _ _)
      have hq' : q ∉ evKeys evs := fun h => hq (List.mem_cons_of_mem _ h)
      rw [ih _ q hq']
      exact fsLookup_fsInsert_ne hqp _ _
    | wAsset p b =>
      rw [evKeys_cons_wAsset] at hq
      have hqp : q ≠ p := fun h => hq (by rw [h]; exact List.mem_cons_self _ _)
      have hq' : q ∉ evKeys evs := fun h => hq (List.mem_cons_of_mem _ h)
      rw [ih _ q hq']
      exact fsLookup_fsInsert_ne hqp _ _
    | gitStatus =>
      rw [evKeys_cons_gitStatus] at hq
      exact ih _ q hq
    | gitCommit =>
      rw [evKeys_cons_gitCommit] at hq
      exact ih _ q hq

/-- Replaying a trace from two stores that agree outside the written paths
yields stores that agree everywhere. -/
theorem applyEvs_lookup_congr :
    ∀ (evs : List Ev) (st st' : FS),
      (∀ q, q ∉ evKeys evs → fsLookup q st = fsLookup q st') →
      ∀ q, fsLookup q (applyEvs evs st) = fsLookup q (applyEvs evs st') := by
  intro evs
  induction evs with
  | nil =>
    intro st st' h q
    exact h q (by simp [evKeys_nil])
  | cons e evs ih =>
    intro st st' h q
    show fsLookup q (applyEvs evs (evApply st e)) =
      fsLookup q (applyEvs evs (evApply st' e))
    apply ih
    intro r hr
    cases e with
    | wDoc p t =>
      rw [evKeys_cons_wDoc] at h
      by_cases hrp : r = p
      · subst hrp
        show fsLookup r (fsInsert r (.text t) st) = fsLookup r (fsInsert r (.text t) st')
        rw [fsLookup_fsInsert_self, fsLookup_fsInsert_self]
      · show fsLookup r (fsInsert p (.text t) st) = fsLookup r (fsInsert p (.text t) st')
        rw [fsLookup_fsInsert_ne hrp, fsLookup_fsInsert_ne hrp]
        refine h r (fun hm => ?_)
        rcases List.mem_cons.mp hm with h1 | h1
        · exact hrp h1
        · exact hr h1
    | wAsset p b =>
      rw [evKeys_cons_wAsset] at h
      by_cases hrp : r = p
      · subst hrp
        show fsLookup r (fsInsert r (.bin b) st) = fsLookup r (fsInsert r (.bin b) st')
        rw [fsLookup_fsInsert_self, fsLookup_fsInsert_self]
      · show fsLookup r (fsInsert p (.bin b) st) = fsLookup r (fsInsert p (.bin b) st')
        rw [fsLookup_fsInsert_ne hrp, fsLookup_fsInsert_ne hrp]
        refine h r (fun hm => ?_)
        rcases List.mem_cons.mp hm with h1 | h1
        · exact hrp h1
        · exact hr h1
    | gitStatus =>
      rw [evKeys_cons_gitStatus] at h
      exact h r hr
    | gitCommit =>
      rw [evKeys_cons_gitCommit] at h
      exact h r hr

/-- Keys survive replaying any trace. -/
theorem mem_fsKeys_applyEvs_of_mem :
    ∀ (evs : List Ev) (st : FS) (p : List Char),
      p ∈ fsKeys st → p ∈ fsKeys (applyEvs evs st) := by
  intro evs
  induction evs with
  | nil => intro st p h; exact h
  | cons e evs ih =>
    intro st p h
    show p ∈ fsKeys (applyEvs evs (evApply st e))
    apply ih
    cases e with
    | wDoc q t => exact mem_fsKeys_fsInsert_of_mem q _ st h
    | wAsset q b => exact mem_fsKeys_fsInsert_of_mem q _ st h
    | gitStatus => exact h
    | gitCommit => exact h

/-- Every path a trace writes is a key after replaying it. -/
theorem evKeys_sub_applyEvs :
    ∀ (evs : List Ev) (st : FS) (p : List Char),
      p ∈ evKeys evs → p ∈ fsKeys (applyEvs evs st) := by
  intro evs
  induction evs with
  | nil => intro st p h; simp [evKeys_nil] at h
  | cons e evs ih =>
    intro st p h
    show p ∈ fsKeys (applyEvs evs (evApply st e))
    cases e with
    | wDoc q t =>
      rw [evKeys_cons_wDoc] at h
      rcases List.mem_cons.mp h with h1 | h1
      · subst h1
        exact mem_fsKeys_applyEvs_of_mem evs _ p (mem_fsKeys_fsInsert p _ st)
      · exact ih _ p h1
    | wAsset q b =>
      rw [evKeys_cons_wAsset] at h
      rcases List.mem_cons.mp h with h1 | h1
      · subst h1
        exact mem_fsKeys_applyEvs_of_mem evs _ p (mem_fsKeys_fsInsert p _ st)
      · exact ih _ p h1
    | gitStatus =>
      rw [evKeys_cons_gitStatus] at h
      exact ih _ p h
    | gitCommit =>
      rw [evKeys_cons_gitCommit] at h
      exact ih _ p h

/-- Replaying a trace whose written paths are already keys keeps the key
list unchanged. -/
theorem fsKeys_applyEvs_of_subset :
    ∀ (evs : List Ev) (st : FS),
      (∀ p ∈ evKeys evs, p ∈ fsKeys st) →
      fsKeys (applyEvs evs st) = fsKeys st := by
  intro evs
  induction evs with
  | nil => intro st _; rfl
  | cons e evs ih =>
    intro st h
    show fsKeys (applyEvs evs (evApply st e)) = fsKeys st
    cases e with
    | wDoc q t =>
      rw [evKeys_cons_wDoc] at h
      have hq : q ∈ fsKeys st := h q (List.mem_cons_self _ _)
      have hkeys : fsKeys (fsInsert q (FVal.text t) st) = fsKeys st :=
        fsKeys_fsInsert_of_mem _ st hq
      rw [show evApply st (Ev.wDoc q t) = fsInsert q (FVal.text t) st from rfl]
      rw [ih _ (fun p hp => by rw [hkeys]; exact h p (List.mem_cons_of_mem _ hp)), hkeys]
    | wAsset q b =>
      rw [evKeys_cons_wAsset] at h
      have hq : q ∈ fsKeys st := h q (List.mem_cons_self _ _)
      have hkeys : fsKeys (fsInsert q (FVal.bin b) st) = fsKeys st :=
        fsKeys_fsInsert_of_mem _ st hq
      rw [show evApply st (Ev.wAsset q b) = fsInsert q (FVal.bin b) st from rfl]
      rw [ih _ (fun p hp => by rw [hkeys]; exact h p (List.mem_cons_of_mem _ hp)), hkeys]
    | gitStatus =>
      rw [evKeys_cons_gitStatus] at h
      exact ih st h
    | gitCommit =>
      rw [evKeys_cons_gitCommit] at h
      exact ih st h

/-- Replaying a trace preserves distinctness of keys. -/
theorem nodup_fsKeys_applyEvs :
    ∀ (evs : List Ev) (st : FS),
      (fsKeys st).Nodup → (fsKeys (applyEvs evs st)).Nodup := by
  intro evs
  induction evs with
  | nil => intro st h; exact h
  | cons e evs ih =>
    intro st h
    show (fsKeys (applyEvs evs (evApply st e))).Nodup
    cases e with
    | wDoc q t => exact ih _ (nodup_fsKeys_fsInsert _ st h)
    | wAsset q b => exact ih _ (nodup_fsKeys_fsInsert _ st h)
    | gitStatus => exact ih st h
    | gitCommit => exact ih st h

/-- Replaying the same trace twice equals replaying it once: the second
replay writes the same values at the same paths. -/
theorem applyEvs_idem (evs : List Ev) (st : FS)
    (hnd : (fsKeys st).Nodup) :
    applyEvs evs (applyEvs evs st) = applyEvs evs st := by
  have hsub : ∀ p ∈ evKeys evs, p ∈ fsKeys (applyEvs evs st) :=
    fun p hp => evKeys_sub_applyEvs evs st p hp
  apply fs_ext
  · exact fsKeys_applyEvs_of_subset evs _ hsub
  · rw [fsKeys_applyEvs_of_subset evs _ hsub]
    exact nodup_fsKeys_applyEvs evs st hnd
  · intro q
    exact applyEvs_lookup_congr evs (applyEvs evs st) st
      (fun r hr => applyEvs_lookup_of_not_mem evs st r hr) q

/-- With every write succeeding and an absolute repository path, the publish
loop never fails. -/
theorem loopTrace_noFail_ok (s : Settings) (vault : List SFile)
    (habs : isAbsolute s.gitRepoPath = true) :
    ∀ pubs : List SFile, (loopTrace s vault noFail pubs).1 = .ok () := by
  intro pubs
  induction pubs with
  | nil => rfl
  | cons f fs ih =>
    have hft : fileTrace s vault noFail f =
        .ok (.wDoc (docTarget s f.name) f.content ::
          assetsTrace s vault noFail (extractAssetNames f.content)) := by
      unfold fileTrace
      rw [if_pos habs]
      rfl
    unfold loopTrace
    rw [hft]
    rcases hlt : loopTrace s vault noFail fs with ⟨r, evs2⟩
    rw [hlt] at ih
    simpa using ih

/-- After a commit step whose stage-plus-commit command does not fail, the
committed tree equals the working tree. -/
theorem commitChanges_none_committed (st : FS) (git : GitState) :
    ((commitChanges st git none).2.1).committed = st := by
  unfold commitChanges
  by_cases h : st = git.committed
  · rw [if_pos h]; exact h.symm
  · rw [if_neg h]

/-- Equation for a run whose publish loop succeeds, with auto-commit on. -/
theorem publishAllNotes_ok_eq (s : Settings) (vault : List SFile)
    (fail : List Char → Bool) (cf : Option (List Char)) (st : FS)
    (git : GitState) (pf : SFile) (pfs : List SFile)
    (hne : ¬ s.gitRepoPath = [])
    (hpubs : getPublishableFiles vault = pf :: pfs)
    (hok : (loopTrace s vault fail (pf :: pfs)).1 = Except.ok ())
    (hauto : s.autoCommit = true) :
    publishAllNotes s vault fail cf st git =
      match commitChanges (applyEvs (loopTrace s vault fail (pf :: pfs)).2 st)
          git cf with
      | (.committed, git', gevs) =>
        ⟨.success (pf :: pfs).length,
          applyEvs (loopTrace s vault fail (pf :: pfs)).2 st, git',
          (loopTrace s vault fail (pf :: pfs)).2 ++ gevs⟩
      | (.noChanges, git', gevs) =>
        ⟨.copiedNoChanges (pf :: pfs).length,
          applyEvs (loopTrace s vault fail (pf :: pfs)).2 st, git',
          (loopTrace s vault fail (pf :: pfs)).2 ++ gevs⟩
      | (.failed msg, git', gevs) =>
        ⟨.commitErrored msg,
          applyEvs (loopTrace s vault fail (pf :: pfs)).2 st, git',
          (loopTrace s vault fail (pf :: pfs)).2 ++ gevs⟩ := by
  rw [publishAllNotes_cons s vault fail cf st git pf pfs hne hpubs, publishLoop_eq]
  simp only [hok]
  rw [if_pos hauto]

/-- C7: rerunning the pipeline on an unchanged corpus is idempotent.  With an
absolute configured root, auto-commit on, at least one publishable file,
every write succeeding, a first run whose commit command does not fail, and a
target filesystem with distinct paths, the second run reports no changes to
commit (creating no new commit: its git state is the first run's), and the
target tree is byte-identical after both runs. -/
theorem c7_idempotent_rerun (s : Settings) (vault : List SFile)
    (cf2 : Option (List Char)) (st : FS) (git : GitState)
    (r1 r2 : RunResult) (pf : SFile) (pfs : List SFile)
    (habs : isAbsolute s.gitRepoPath = true)
    (hne : s.gitRepoPath ≠ [])
    (hauto : s.autoCommit = true)
    (hpubs : getPublishableFiles vault = pf :: pfs)
    (hnd : (fsKeys st).Nodup)
    (hr1 : r1 = publishAllNotes s vault noFail none st git)
    (hr2 : r2 = publishAllNotes s vault noFail cf2 r1.fs r1.git) :
    r2.outcome = .copiedNoChanges (pf :: pfs).length ∧
    r2.fs = r1.fs ∧ r2.git = r1.git := by
  have hok := loopTrace_noFail_ok s vault habs (pf :: pfs)
  have h1 := publishAllNotes_ok_eq s vault noFail none st git pf pfs hne hpubs hok hauto
  rcases hc1 : commitChanges (applyEvs (loopTrace s vault noFail (pf :: pfs)).2 st)
      git none with ⟨cr1, git1, gevs1⟩
  rw [hc1] at h1
  have hgit1 : git1.committed = applyEvs (loopTrace s vault noFail (pf :: pfs)).2 st := by
    have hcn := commitChanges_none_committed
      (applyEvs (loopTrace s vault noFail (pf :: pfs)).2 st) git
    rw [hc1] at hcn
    exact hcn
  have hr1fs : r1.fs = applyEvs (loopTrace s vault noFail (pf :: pfs)).2 st := by
    rw [hr1, h1]; cases cr1 <;> rfl
  have hr1git : r1.git = git1 := by
    rw [hr1, h1]; cases cr1 <;> rfl
  have h2 := publishAllNotes_ok_eq s vault noFail cf2 r1.fs r1.git pf pfs hne hpubs hok hauto
  have hidem : applyEvs (loopTrace s vault noFail (pf :: pfs)).2 r1.fs = r1.fs := by
    rw [hr1fs]
    exact applyEvs_idem _ st hnd
  have hclean : applyEvs (loopTrace s vault noFail (pf :: pfs)).2 r1.fs =
      r1.git.committed := by
    rw [hidem, hr1fs, hr1git, hgit1]
  have hc2 : commitChanges (applyEvs (loopTrace s vault noFail (pf :: pfs)).2 r1.fs)
      r1.git cf2 = (.noChanges, r1.git, [.gitStatus]) := by
    unfold commitChanges
    rw [if_pos hclean]
  rw [hc2] at h2
  rw [hr2, h2]
  exact ⟨rfl, hidem, rfl⟩

/-- C7 witness: two successive runs over a one-document corpus from an empty
target tree — the second reports no changes, and its tree and git state are
the first run's. -/
theorem c7_idempotent_rerun_witness :
    (publishAllNotes wSettings [wNoteA] noFail none
        (publishAllNotes wSettings [wNoteA] noFail none [] git0).fs
        (publishAllNotes wSettings [wNoteA] noFail none [] git0).git).outcome =
      .copiedNoChanges 1 ∧
    (publishAllNotes wSettings [wNoteA] noFail none
        (publishAllNotes wSettings [wNoteA] noFail none [] git0).fs
        (publishAllNotes wSettings [wNoteA] noFail none [] git0).git).fs =
      (publishAllNotes wSettings [wNoteA] noFail none [] git0).fs ∧
    (publishAllNotes wSettings [wNoteA] noFail none
        (publishAllNotes wSettings [wNoteA] noFail none [] git0).fs
        (publishAllNotes wSettings [wNoteA] noFail none [] git0).git).git =
      (publishAllNotes wSettings [wNoteA] noFail none [] git0).git :=
  c7_idempotent_rerun wSettings [wNoteA] none [] git0
    (publishAllNotes wSettings [wNoteA] noFail none [] git0)
    (publishAllNotes wSettings [wNoteA] noFail none
      (publishAllNotes wSettings [wNoteA] noFail none [] git0).fs
      (publishAllNotes wSettings [wNoteA] noFail none [] git0).git)
    wNoteA [] (by decide) (by decide) rfl (by decide) (by decide) rfl rfl

/-- C9: counterexample to the claim as stated.  The document below has no
frontmatter block in the specification's sense (no later line consisting
solely of three hyphens), so the claim demands the minimal block be
prepended; but the source regex accepts the four-hyphen line as a closing
delimiter and `addPublishFlag` splices the flag line inside instead. -/
theorem c9_counterexample :
    specHasBlock "---\nx\n----".data = false ∧
    addPublishFlag "---\nx\n----".data ≠
      newBlockPrefix ++ "---\nx\n----".data :=
  ⟨by decide, by decide⟩

/-- A replacement template without a dollar character expands to itself. -/
theorem expandRepl_no_dollar (matched capture after : List Char) :
    ∀ (fuel : Nat) (l : List Char), l.length ≤ fuel → '$' ∉ l →
      expandRepl matched capture after fuel l = l := by
  intro fuel
  induction fuel with
  | zero =>
    intro l hlen _
    cases l with
    | nil => rfl
    | cons c t => simp at hlen
  | succ fuel ih =>
    intro l hlen hd
    cases l with
    | nil => rfl
    | cons c t =>
      have hc : c ≠ '$' := fun h => hd (by rw [← h]; exact List.mem_cons_self c t)
      have ht : '$' ∉ t := fun hm => hd (List.mem_cons_of_mem _ hm)
      have hlt : t.length ≤ fuel := by
        simp only [List.length_cons] at hlen
        omega
      simp only [expandRepl]
      rw [if_neg hc, ih t hlt ht]

/-- The dollar-pattern expansion observed on a concrete document: the `$1`
inside the frontmatter body is replaced by the captured body itself when the
flag line is spliced in, exactly as the string replacement of the source
behaves. -/
theorem addPublishFlag_dollar_expansion :
    addPublishFlag "---\ntitle: $1\n---\nrest".data =
      "---\ntitle: title: $1\npublish: true\n---\nrest".data := by decide

/-- C9 (amended): block presence is decided by the source regex, whose
closing delimiter is the first occurrence of a newline followed by three
hyphens.  First conjunct: when the document splits along that regex and the
body contains no dollar character — so the string replacement expands no
dollar pattern — the result is the original text with the line
`publish: true` inserted immediately before the closing delimiter,
everything else unchanged (bodies containing dollar patterns are further
rewritten by the replacement expansion, as `addPublishFlag_dollar_expansion`
exhibits).  Second conjunct: when no such split exists, the result is the
minimal block (`---`, flag line, `---`, blank line) prepended to the
original content.  Third conjunct: a negative confirmation leaves the vault
unmutated and the target tree untouched — nothing is mirrored. -/
theorem c9_flag_mutation :
    (∀ body rest : List Char, ¬ fmClose <:+: body → '$' ∉ body →
      addPublishFlag (fmOpen ++ body ++ fmClose ++ rest) =
        fmOpen ++ body ++ flagLine ++ fmClose ++ rest) ∧
    (∀ c : List Char, (¬ ∃ body rest, c = fmOpen ++ body ++ fmClose ++ rest) →
      addPublishFlag c = newBlockPrefix ++ c) ∧
    (∀ (s : Settings) (vault : List SFile) (fail : List Char → Bool)
        (cf : Option (List Char)) (p : List Char) (f0 : SFile) (st : FS)
        (git : GitState),
      s.gitRepoPath ≠ [] →
      vault.find? (fun f => f.path == p) = some f0 →
      shouldPublishFile f0.content = false →
      publishCurrentNote s vault fail cf (some p) false st git =
        (vault, ⟨.cancelled, st, git, []⟩)) := by
  refine ⟨?_, ?_, ?_⟩
  · intro body rest hninf hnod
    have hc : fmOpen ++ body ++ fmClose ++ rest =
        fmOpen ++ (body ++ (fmClose ++ rest)) := by
      simp [List.append_assoc]
    rw [hc]
    unfold addPublishFlag
    have hpre : fmOpen <+: fmOpen ++ (body ++ (fmClose ++ rest)) :=
      List.prefix_append _ _
    have hd : (fmOpen ++ (body ++ (fmClose ++ rest))).drop 4 =
        body ++ (fmClose ++ rest) := List.drop_left' fmOpen_length
    rw [if_pos hpre, hd, findSub_fmClose_split body rest hninf]
    show expandRepl (fmOpen ++ (body ++ (fmClose ++ rest)).take body.length ++ fmClose)
        ((body ++ (fmClose ++ rest)).take body.length)
        ((body ++ (fmClose ++ rest)).drop (body.length + 4))
        (fmOpen ++ (body ++ (fmClose ++ rest)).take body.length ++ flagLine ++
          fmClose).length
        (fmOpen ++ (body ++ (fmClose ++ rest)).take body.length ++ flagLine ++
          fmClose) ++
        (body ++ (fmClose ++ rest)).drop (body.length + 4) =
      fmOpen ++ body ++ flagLine ++ fmClose ++ rest
    have hdrop : (body ++ (fmClose ++ rest)).drop (body.length + 4) = rest := by
      rw [← List.append_assoc]
      exact List.drop_left' (by rw [List.length_append, fmClose_length])
    rw [List.take_left, hdrop]
    have htmpl : '$' ∉ fmOpen ++ body ++ flagLine ++ fmClose := by
      intro hm
      simp only [List.mem_append] at hm
      rcases hm with ((h | h) | h) | h
      · exact absurd h (by decide)
      · exact hnod h
      · exact absurd h (by decide)
      · exact absurd h (by decide)
    rw [expandRepl_no_dollar _ _ _ _ _ (Nat.le_refl _) htmpl]
  · intro c hno
    unfold addPublishFlag
    by_cases hpre : fmOpen <+: c
    · cases hfind : findSub fmClose (c.drop 4) with
      | none => rw [if_pos hpre]
      | some i =>
        exfalso
        obtain ⟨rest, hsplit⟩ := split_of_findSub_some hpre hfind
        exact hno ⟨(c.drop 4).take i, rest, hsplit⟩
    · rw [if_neg hpre]
  · intro s vault fail cf p f0 st git hne hfind hshould
    simp [publishCurrentNote, hne, hfind, hshould]

/-- C9 witness: the insertion branch applied to a concrete document with an
existing frontmatter block. -/
theorem c9_flag_mutation_witness :
    addPublishFlag (fmOpen ++ "title: a".data ++ fmClose ++ "\nbody".data) =
      fmOpen ++ "title: a".data ++ flagLine ++ fmClose ++ "\nbody".data :=
  c9_flag_mutation.1 "title: a".data "\nbody".data (by decide) (by decide)

end GeneralPublish
